import Mathlib

/-!
Verification of the markdown-to-pdf-api conversion core against its
natural-language specification.

The Python sources are shallowly embedded: strings become `List Char`,
the stateful parser loops become explicit recursion over a line index,
exceptions become `Option`/`Except`, and calls into external libraries
(reportlab, python-docx internals, pandas/openpyxl, the filesystem) are
modelled as explicit outcome parameters of type `Except`.
-/

set_option maxHeartbeats 1000000

namespace MdApi

/-- Python strings are modelled as lists of characters. -/
abbrev Str := List Char

/-! ## Basic Python string operations -/

/-- The characters Python's `str.strip()` removes (ASCII whitespace;
the further Unicode whitespace code points are not exercised here). -/
def isWs (c : Char) : Bool :=
  c == ' ' || c == '\t' || c == '\n' || c == '\r' || c == '\x0b' || c == '\x0c'

/-- Python `s.strip()`. -/
def pyStrip (s : Str) : Str :=
  ((s.dropWhile isWs).reverse.dropWhile isWs).reverse

/-- Python `s.lower()` (ASCII case folding suffices for the style names used). -/
def pyLower (s : Str) : Str := s.map Char.toLower

/-- Python `s.startswith(pat)`: `strStarts pat s`. -/
def strStarts : Str → Str → Bool
  | [], _ => true
  | _ :: _, [] => false
  | p :: ps, c :: cs => p == c && strStarts ps cs

/-- Python `s.endswith(pat)`: `strEnds pat s`. -/
def strEnds (pat s : Str) : Bool := strStarts pat.reverse s.reverse

/-- Python `pat in s` (substring containment). -/
def strContains : Str → Str → Bool
  | [], pat => pat.isEmpty
  | c :: cs, pat => strStarts pat (c :: cs) || strContains cs pat

/-- Python `s.split(sep)` for a one-character separator:
`"".split('\n') == [""]`, `"\n".split('\n') == ["", ""]`. -/
def splitOnChar (sep : Char) : Str → List Str
  | [] => [[]]
  | c :: cs =>
    if c == sep then [] :: splitOnChar sep cs
    else
      match splitOnChar sep cs with
      | [] => [[c]]
      | r :: rs => (c :: r) :: rs

/-- Python `html.escape` on a single character (quote=True default). -/
def htmlEscapeChar (c : Char) : Str :=
  if c = '&' then "&amp;".data
  else if c = '<' then "&lt;".data
  else if c = '>' then "&gt;".data
  else if c = '"' then "&quot;".data
  else if c = '\'' then "&#x27;".data
  else [c]

/-- Python `html.escape(s)`: the sequential `str.replace` calls of the
library implementation are equivalent to this character-wise expansion,
because no replacement text contains a character replaced later. -/
def htmlEscape (s : Str) : Str := (s.map htmlEscapeChar).flatten

/-! ## DOCX structural reader (`src/api/docx_to_pdf.py`)

`iter_block_items` walks the document body's child elements in stored
(XML) order, yielding paragraphs and tables interleaved.  The body is
therefore embedded as a list of `BodyChild` in stored order. -/

/-- One run of a DOCX paragraph (`docx.text.run.Run`). -/
structure DocxRun where
  text : Str
  bold : Bool
  italic : Bool
  underline : Bool
deriving DecidableEq, Repr

/-- A DOCX paragraph: its style name and its runs.  `python-docx`
defines `paragraph.text` as the concatenation of its runs' texts. -/
structure DocxPara where
  style : Str
  runs : List DocxRun
deriving DecidableEq, Repr

/-- `paragraph.text` in python-docx. -/
def paraText (p : DocxPara) : Str := (p.runs.map DocxRun.text).flatten

/-- A child of the document body, in stored order, as produced by
`DocxToPdf.iter_block_items`.  A table is its grid of cell texts. -/
inductive BodyChild where
  | para (p : DocxPara)
  | table (rows : List (List Str))
deriving DecidableEq, Repr

/-- A cell of a ReportLab table row: a wrapped `Paragraph` for non-blank
cell text, or the empty string placeholder. -/
inductive TableCell where
  | par (t : Str)
  | blank
deriving DecidableEq, Repr

/-- One entry of the `story_content` list built by
`DocxToPdf.extract_ordered_content`. -/
inductive StoryItem where
  | title (t : Str)
  | heading (t : Str)
  | listBullet (t : Str)
  | normal (t : Str)
  | table (data : List (List TableCell))
deriving DecidableEq, Repr

/-- `DocxToPdf._process_text_run`, per run: drop NUL characters, skip
empty runs, HTML-escape, and wrap in `<b>`/`<i>`/`<u>` tags. -/
def formatRun (r : DocxRun) : Str :=
  let text := r.text.filter (fun c => c ≠ '\x00')
  if text.isEmpty then []
  else
    let safe := htmlEscape text
    let safe := if r.bold then "<b>".data ++ safe ++ "</b>".data else safe
    let safe := if r.italic then "<i>".data ++ safe ++ "</i>".data else safe
    let safe := if r.underline then "<u>".data ++ safe ++ "</u>".data else safe
    safe

/-- `DocxToPdf._process_text_run`. -/
def process_text_run (p : DocxPara) : Str :=
  if p.runs.isEmpty then htmlEscape (paraText p)
  else (p.runs.map formatRun).flatten

/-- The paragraph classification of `extract_ordered_content`: the style
name is lowercased and inspected for the substrings
"title" / "heading" / "list" / "bullet". -/
def classifyPara (p : DocxPara) : StoryItem :=
  let text_fmt := process_text_run p
  let style_name := pyLower p.style
  if strContains style_name "title".data then .title text_fmt
  else if strContains style_name "heading".data then .heading text_fmt
  else if strContains style_name "list".data || strContains style_name "bullet".data then
    .listBullet text_fmt
  else .normal text_fmt

/-- Cell conversion inside the table branch of `extract_ordered_content`:
non-blank cell text becomes an escaped nested paragraph, blank cells the
empty string. -/
def convertCell (cellText : Str) : TableCell :=
  let ct := pyStrip cellText
  if ct.isEmpty then .blank else .par (htmlEscape ct)

/-- The per-block-item step of the `extract_ordered_content` loop: a
whitespace-only paragraph contributes nothing, any other paragraph one
classified entry; a table contributes its converted grid unless it has
no rows. -/
def convertBlock : BodyChild → Option StoryItem
  | .para p =>
      if (pyStrip (paraText p)).isEmpty then none
      else some (classifyPara p)
  | .table rows =>
      let table_data := rows.map (fun row => row.map convertCell)
      if table_data.isEmpty then none else some (.table table_data)

/-- `DocxToPdf.extract_ordered_content`: iterate the body's children in
stored order, appending at most one story entry per child. -/
def extract_ordered_content (body : List BodyChild) : List StoryItem :=
  body.filterMap convertBlock

/-! ## JSON validation (`src/api/json_to_excel.py`)

`validate_json_data` receives an arbitrary parsed JSON value.  Only its
list-shape, the dict-shape of the elements and their key sets influence
the result, so an element is embedded as its key set (dict values are
irrelevant to validation), with a separate case for non-dict elements,
and the input as a list of such elements or a non-list. -/

/-- An element of the candidate record list: a dictionary is represented
by its key set, anything else by `nondict`. -/
inductive JItem where
  | dict (keys : Finset String)
  | nondict

/-- The candidate input: a list of elements, or any non-list value. -/
inductive JData where
  | list (items : List JItem)
  | nonlist

/-- `set(item.keys()) if item else set()`: the key set of a dict (an
empty — falsy — dict also yields the empty set). -/
def itemKeys : JItem → Finset String
  | .dict ks => ks
  | .nondict => ∅

/-- The `enumerate` scan of `validate_json_data` for the first non-dict
element, returning its index. -/
def firstNonDict : List JItem → Nat → Option Nat
  | [], _ => none
  | .dict _ :: rest, i => firstNonDict rest (i + 1)
  | .nondict :: _, i => some i

/-- The key-compatibility scan of `validate_json_data` over
`json_data[1:]`: an item whose key set differs from the first item's and
whose symmetric difference with it exceeds half the first key count is
reported by index.  The source compares
`len(sym_diff) > len(first_keys) * 0.5`; both sides doubled gives the
exact integer condition (the float product `n * 0.5` is exact). -/
def firstBadKeys (first : Finset String) : List JItem → Nat → Option Nat
  | [], _ => none
  | it :: rest, i =>
      let current := itemKeys it
      if current ≠ first ∧ 2 * (symmDiff current first).card > first.card then some i
      else firstBadKeys first rest (i + 1)

/-- `JsonToExcel.validate_json_data`. -/
def validate_json_data : JData → Bool × String
  | .nonlist => (false, "Dados devem ser uma lista")
  | .list [] => (false, "Lista de dados não pode estar vazia")
  | .list (first :: rest) =>
      match firstNonDict (first :: rest) 0 with
      | some i => (false, "Item " ++ toString i ++ " não é um dicionário válido")
      | none =>
          let first_keys := itemKeys first
          match firstBadKeys first_keys rest 1 with
          | some i =>
              (false, "Item " ++ toString i ++ " tem chaves muito diferentes do primeiro item")
          | none => (true, "Dados válidos")

/-- The validity condition exactly as claim C2 words it: a non-empty
list, all elements dictionaries, and every later record's key set within
a 50%-of-the-first-key-count symmetric difference of the first record's
key set.  (Stated from the claim, to be compared with the source
function `validate_json_data`.) -/
def claimC2Valid : JData → Prop
  | .nonlist => False
  | .list [] => False
  | .list (first :: rest) =>
      (∀ it ∈ first :: rest, ∃ ks, it = JItem.dict ks) ∧
      ∀ it ∈ rest, 2 * (symmDiff (itemKeys it) (itemKeys first)).card ≤ (itemKeys first).card

/-! ## Regex substitution engine

The converters use `re.sub` with a fixed repertoire of patterns: a
literal, `pre.*?>` (lazy up to the next `>`, `.` not matching a
newline), `<h[1-6].*?>` and `</h[1-6]>`, `opn(.*?)cls` wrapping
rewrites, and `<[^>]+>`.  Each is embedded as a head-matcher returning
the replacement text and the number of characters consumed, and a
scanner that applies a head-matcher left to right without overlap,
exactly as `re.sub`/`re.finditer` scan. -/

/-- The structural worker of `scanSub`: the fuel bounds the number of
scan steps and is immaterial whenever it is at least the text length
(every step consumes at least one character). -/
def scanSubF (m : Str → Option (Str × Nat)) : Nat → Str → Str
  | _, [] => []
  | 0, c :: cs => c :: cs
  | fuel + 1, c :: cs =>
    match m (c :: cs) with
    | some (repl, n) => repl ++ scanSubF m fuel (cs.drop (n - 1))
    | none => c :: scanSubF m fuel cs

/-- Apply a head-matcher at every position, left to right; a match
consumes its reported length (all matchers report ≥ 1 here, matching
the non-empty patterns of the source). -/
def scanSub (m : Str → Option (Str × Nat)) (s : Str) : Str :=
  scanSubF m s.length s

/-- Matcher for a literal pattern. -/
def mLit (pat repl : Str) (s : Str) : Option (Str × Nat) :=
  if strStarts pat s then some (repl, pat.length) else none

/-- Index of the first `>` with no newline before it (the lazy `.*?>`
tail of a tag pattern; `.` does not match a newline). -/
def findGtNoNl : Str → Option Nat
  | [] => none
  | c :: cs =>
    if c == '>' then some 0
    else if c == '\n' then none
    else (findGtNoNl cs).map (· + 1)

/-- Matcher for `pre.*?>` (e.g. `<p.*?>`), replaced by nothing. -/
def mOpenTag (pre : Str) (s : Str) : Option (Str × Nat) :=
  if strStarts pre s then
    match findGtNoNl (s.drop pre.length) with
    | some j => some ([], pre.length + j + 1)
    | none => none
  else none

/-- A digit of the `[1-6]` class of the heading patterns. -/
def isH16 (c : Char) : Bool :=
  c == '1' || c == '2' || c == '3' || c == '4' || c == '5' || c == '6'

/-- Matcher for `<h[1-6].*?>`, replaced by nothing. -/
def mHOpen (s : Str) : Option (Str × Nat) :=
  if strStarts "<h".data s then
    match s.drop 2 with
    | c :: rest =>
        if isH16 c then
          match findGtNoNl rest with
          | some j => some ([], 3 + j + 1)
          | none => none
        else none
    | [] => none
  else none

/-- Matcher for `</h[1-6]>`, replaced by nothing. -/
def mHClose (s : Str) : Option (Str × Nat) :=
  if strStarts "</h".data s then
    match s.drop 3 with
    | c :: d :: _ => if isH16 c && d == '>' then some ([], 5) else none
    | _ => none
  else none

/-- Index of the first `>` (for `<[^>]+>`; the negated class admits a
newline). -/
def findGtAny : Str → Option Nat
  | [] => none
  | c :: cs => if c == '>' then some 0 else (findGtAny cs).map (· + 1)

/-- Matcher for `<[^>]+>`, replaced by nothing: at a `<`, at least one
non-`>` character, then the first `>`. -/
def mAnyTag (s : Str) : Option (Str × Nat) :=
  match s with
  | '<' :: rest =>
      match findGtAny rest with
      | some j => if j == 0 then none else some ([], j + 2)
      | none => none
  | _ => none

/-- The lazy group scan of `opn(.*?)cls`: content up to the first
occurrence of `cls`, failing on a newline, returning the content and
the characters consumed including `cls`. -/
def findCloseNoNl (cls : Str) : Str → Option (Str × Nat)
  | [] => none
  | c :: cs =>
    if strStarts cls (c :: cs) then some ([], cls.length)
    else if c == '\n' then none
    else
      match findCloseNoNl cls cs with
      | some (content, n) => some (c :: content, n + 1)
      | none => none

/-- A match of `opn(.*?)cls` at the head of `s`: the group content and
the characters consumed. -/
def matchWrapAt (opn cls : Str) (s : Str) : Option (Str × Nat) :=
  if strStarts opn s then
    match findCloseNoNl cls (s.drop opn.length) with
    | some (content, n) => some (content, opn.length + n)
    | none => none
  else none

/-- Matcher for `opn(.*?)cls` replaced by `newOpn\1newCls`. -/
def mWrap (opn cls newOpn newCls : Str) (s : Str) : Option (Str × Nat) :=
  (matchWrapAt opn cls s).map fun m => (newOpn ++ m.1 ++ newCls, m.2)

/-- `re.sub(r'pre.*?>', '', text)`. -/
def subOpen (pre : Str) (s : Str) : Str := scanSub (mOpenTag pre) s

/-- `re.sub(pat, '', text)` for a literal `pat`. -/
def subLit (pat : Str) (s : Str) : Str := scanSub (mLit pat []) s

/-- `re.sub(r'opn(.*?)cls', r'newOpn\1newCls', text)`. -/
def subWrap (opn cls newOpn newCls : Str) (s : Str) : Str :=
  scanSub (mWrap opn cls newOpn newCls) s

/-- `re.sub(r'<[^>]+>', '', text)`. -/
def subAnyTag (s : Str) : Str := scanSub mAnyTag s

/-- `re.sub(r'<h[1-6].*?>', '', text)`. -/
def subHOpen (s : Str) : Str := scanSub mHOpen s

/-- `re.sub(r'</h[1-6]>', '', text)`. -/
def subHClose (s : Str) : Str := scanSub mHClose s

/-- Python `s.replace(pat, repl)` (all occurrences, left to right). -/
def replaceAll (pat repl : Str) (s : Str) : Str := scanSub (mLit pat repl) s

/-! ## Markdown → PDF parser (`src/api/markdown_to_pdf_reportlab.py`) -/

/-- `MarkdownToPDFReportLab._clean_html_tags`: strip the block-level
tags, rewrite inline formatting to ReportLab markup, drop any remaining
tag, and trim. -/
def clean_html_tags_rl (text : Str) : Str :=
  let text := subOpen "<p".data text
  let text := subLit "</p>".data text
  let text := subOpen "<li".data text
  let text := subLit "</li>".data text
  let text := subOpen "<ul".data text
  let text := subLit "</ul>".data text
  let text := subOpen "<ol".data text
  let text := subLit "</ol>".data text
  let text := subHOpen text
  let text := subHClose text
  let text := subOpen "<blockquote".data text
  let text := subLit "</blockquote>".data text
  let text := subWrap "<strong>".data "</strong>".data "<b>".data "</b>".data text
  let text := subWrap "<em>".data "</em>".data "<i>".data "</i>".data text
  let text := subWrap "<code>".data "</code>".data
      "<font name=\"Courier\" size=\"9\">".data "</font>".data text
  let text := subAnyTag text
  pyStrip text

/-- The ReportLab paragraph styles used by the parser. -/
inductive RLStyle where
  | customTitle
  | customHeading2
  | customHeading3
  | customNormal
  | customQuote
deriving DecidableEq, Repr

/-- A ReportLab flowable as produced by `_parse_markdown_to_elements`. -/
inductive RLElem where
  | paragraph (text : Str) (style : RLStyle)
  | preformatted (text : Str)
  | spacer (w h : Nat)
deriving DecidableEq, Repr

/-- Flushing the pending `current_paragraph` buffer: a space-joined
`CustomNormal` paragraph when non-empty. -/
def flushPar (cur : List Str) : List RLElem :=
  if cur.isEmpty then []
  else [RLElem.paragraph (List.intercalate " ".data cur) RLStyle.customNormal]

/-- The inner `while` of the multi-line code/blockquote branches:
collect raw lines from index `i` until one whose stripped form ends
with `sfx` (or the input is exhausted), returning the collected lines
and the offset of the stop position from `i`. -/
def scanUntilEnd (sfx : Str) (lines : List Str) (i : Nat) : Option (List Str × Nat) :=
  if _h : i < lines.length then
    match lines.get? i with
    | none => none
    | some l =>
      if strEnds sfx (pyStrip l) then some ([], 0)
      else
        match scanUntilEnd sfx lines (i + 1) with
        | none => none
        | some (rest, d) => some (l :: rest, d + 1)
  else some ([], 0)
termination_by lines.length - i

/-- The inner `while` of the list branch: collect `• `-prefixed cleaned
texts of the `<li>` lines until a closing `</ul>`/`</ol>` line (or end
of input), returning them and the offset of the stop position. -/
def scanListItems (lines : List Str) (i : Nat) : Option (List Str × Nat) :=
  if _h : i < lines.length then
    match lines.get? i with
    | none => none
    | some l =>
      let ls := pyStrip l
      if ls = "</ul>".data ∨ ls = "</ol>".data then some ([], 0)
      else
        let item :=
          if strStarts "<li>".data ls then ["• ".data ++ clean_html_tags_rl ls] else []
        match scanListItems lines (i + 1) with
        | none => none
        | some (items, d) => some (item ++ items, d + 1)
  else some ([], 0)
termination_by lines.length - i

/-- The guarded `if i < len(lines): ... lines[i] ...` access pattern:
`none` is an (impossible) index error, `some none` the guard being
false, `some (some l)` the accessed line. -/
def guardGet (lines : List Str) (j : Nat) : Option (Option Str) :=
  if j < lines.length then (lines.get? j).map some else some none

/-- The main `while` loop of `_parse_markdown_to_elements` over the
split HTML lines: index `i`, pending paragraph buffer `cur`, and
accumulated elements `acc`.  `none` models an uncaught `IndexError`. -/
def parseGo (lines : List Str) (i : Nat) (cur : List Str) (acc : List RLElem) :
    Option (List RLElem) :=
  if _h : i < lines.length then
    match lines.get? i with
    | none => none
    | some rawLine =>
      let line := pyStrip rawLine
      if line.isEmpty then
        parseGo lines (i + 1) [] (acc ++ flushPar cur)
      else if strStarts "<h1>".data line && strEnds "</h1>".data line then
        parseGo lines (i + 1) []
          (acc ++ flushPar cur ++
            [RLElem.paragraph (clean_html_tags_rl line) RLStyle.customTitle,
             RLElem.spacer 1 12])
      else if strStarts "<h2>".data line && strEnds "</h2>".data line then
        parseGo lines (i + 1) []
          (acc ++ flushPar cur ++
            [RLElem.paragraph (clean_html_tags_rl line) RLStyle.customHeading2,
             RLElem.spacer 1 8])
      else if strStarts "<h3>".data line && strEnds "</h3>".data line then
        parseGo lines (i + 1) []
          (acc ++ flushPar cur ++
            [RLElem.paragraph (clean_html_tags_rl line) RLStyle.customHeading3,
             RLElem.spacer 1 6])
      else if strStarts "<pre><code>".data line then
        if strEnds "</code></pre>".data line then
          let code_content :=
            replaceAll "</code></pre>".data [] (replaceAll "<pre><code>".data [] line)
          parseGo lines (i + 1) []
            (acc ++ flushPar cur ++
              [RLElem.preformatted code_content, RLElem.spacer 1 12])
        else
          match scanUntilEnd "</code></pre>".data lines (i + 1) with
          | none => none
          | some (collected, d) =>
            match guardGet lines (i + 1 + d) with
            | none => none
            | some closing? =>
              let extra :=
                match closing? with
                | some lj => [replaceAll "</code></pre>".data [] lj]
                | none => []
              let code_content :=
                List.intercalate "\n".data
                  ((replaceAll "<pre><code>".data [] line :: collected) ++ extra)
              parseGo lines (i + 1 + d + 1) []
                (acc ++ flushPar cur ++
                  [RLElem.preformatted code_content, RLElem.spacer 1 12])
      else if strStarts "<blockquote>".data line then
        if strEnds "</blockquote>".data line then
          let quote_content :=
            replaceAll "</blockquote>".data [] (replaceAll "<blockquote>".data [] line)
          parseGo lines (i + 1) []
            (acc ++ flushPar cur ++
              [RLElem.paragraph (clean_html_tags_rl quote_content) RLStyle.customQuote,
               RLElem.spacer 1 12])
        else
          match scanUntilEnd "</blockquote>".data lines (i + 1) with
          | none => none
          | some (collected, d) =>
            match guardGet lines (i + 1 + d) with
            | none => none
            | some closing? =>
              let extra :=
                match closing? with
                | some lj => [replaceAll "</blockquote>".data [] lj]
                | none => []
              let quote_content :=
                List.intercalate " ".data
                  ((replaceAll "<blockquote>".data [] line :: collected) ++ extra)
              parseGo lines (i + 1 + d + 1) []
                (acc ++ flushPar cur ++
                  [RLElem.paragraph (clean_html_tags_rl quote_content) RLStyle.customQuote,
                   RLElem.spacer 1 12])
      else if strStarts "<ul>".data line || strStarts "<ol>".data line then
        match scanListItems lines (i + 1) with
        | none => none
        | some (items, d) =>
          parseGo lines (i + 1 + d + 1) []
            (acc ++ flushPar cur ++
              items.map (fun it => RLElem.paragraph it RLStyle.customNormal) ++
              [RLElem.spacer 1 8])
      else if strStarts "<p>".data line && strEnds "</p>".data line then
        parseGo lines (i + 1) []
          (acc ++ flushPar cur ++
            [RLElem.paragraph (clean_html_tags_rl line) RLStyle.customNormal,
             RLElem.spacer 1 6])
      else
        parseGo lines (i + 1) (cur ++ [clean_html_tags_rl line]) acc
  else some (acc ++ flushPar cur)
termination_by lines.length - i

/-- `MarkdownToPDFReportLab._parse_markdown_to_elements`, from the line
split of the intermediate HTML onward (the `markdown2.markdown` call is
an external library whose output is this function's input). -/
def parse_markdown_to_elements (html : Str) : Option (List RLElem) :=
  parseGo (splitOnChar '\n' html) 0 [] []

/-! ## Inline span splitting (`src/api/markdown_to_docx.py`) -/

/-- `MarkdownToDocx._clean_basic_tags`: strip only the block tags,
keeping inline formatting tags, and trim. -/
def clean_basic_tags (text : Str) : Str :=
  let text := subOpen "<p".data text
  let text := subLit "</p>".data text
  let text := subOpen "<li".data text
  let text := subLit "</li>".data text
  let text := subHOpen text
  let text := subHClose text
  let text := subOpen "<blockquote".data text
  let text := subLit "</blockquote>".data text
  pyStrip text

/-- `MarkdownToDocx._clean_html_tags`: remove every HTML tag and trim —
this is the renderer's notion of a paragraph's visible text. -/
def clean_html_tags_docx (text : Str) : Str := pyStrip (subAnyTag text)

/-- The `format_type` strings of `_split_formatted_text`. -/
inductive FmtType where
  | bold
  | italic
  | code
deriving DecidableEq, Repr

/-- The five `(pattern, format_type)` pairs of `_split_formatted_text`,
in source order. -/
inductive PatId where
  | strongTag
  | bTag
  | emTag
  | iTag
  | codeTag
deriving DecidableEq, Repr

/-- The literal opening tag of a pattern. -/
def patOpen : PatId → Str
  | .strongTag => "<strong>".data
  | .bTag => "<b>".data
  | .emTag => "<em>".data
  | .iTag => "<i>".data
  | .codeTag => "<code>".data

/-- The literal closing tag of a pattern. -/
def patClose : PatId → Str
  | .strongTag => "</strong>".data
  | .bTag => "</b>".data
  | .emTag => "</em>".data
  | .iTag => "</i>".data
  | .codeTag => "</code>".data

/-- The format type associated with a pattern. -/
def patFmt : PatId → FmtType
  | .strongTag => .bold
  | .bTag => .bold
  | .emTag => .italic
  | .iTag => .italic
  | .codeTag => .code

/-- One `(start, end, content, format_type)` tuple collected by
`_split_formatted_text`. -/
structure FmtMatch where
  start : Nat
  stop : Nat
  content : Str
  fmt : FmtType
deriving DecidableEq, Repr

/-- The structural worker of `finditerWrap` (fuel as in `scanSubF`). -/
def finditerWrapF (opn cls : Str) : Nat → Str → Nat → List (Nat × Nat × Str)
  | _, [], _ => []
  | 0, _ :: _, _ => []
  | fuel + 1, c :: cs, p =>
    match matchWrapAt opn cls (c :: cs) with
    | some (content, n) =>
        (p, p + n, content) :: finditerWrapF opn cls fuel (cs.drop (n - 1)) (p + n)
    | none => finditerWrapF opn cls fuel cs (p + 1)

/-- `re.finditer(r'opn(.*?)cls', text)`: non-overlapping lazy matches
scanned left to right, with positions relative to the offset `p`. -/
def finditerWrap (opn cls : Str) (s : Str) (p : Nat) : List (Nat × Nat × Str) :=
  finditerWrapF opn cls s.length s p

/-- All matches of one pattern over the cleaned text, tagged with its
format type. -/
def matchesFor (q : PatId) (t : Str) : List FmtMatch :=
  (finditerWrap (patOpen q) (patClose q) t 0).map
    (fun m => ⟨m.1, m.2.1, m.2.2, patFmt q⟩)

/-- The match collection loop of `_split_formatted_text`, pattern by
pattern in source order. -/
def collectMatches (t : Str) : List FmtMatch :=
  matchesFor .strongTag t ++ matchesFor .bTag t ++ matchesFor .emTag t ++
    matchesFor .iTag t ++ matchesFor .codeTag t

/-- Insertion step of `matches.sort()`.  The Python sort compares the
`(start, end, content, type)` tuples lexicographically; two matches can
never share a start position (the five opening literals are pairwise
non-prefix and one pattern's matches have distinct starts), so the
order is determined by `start` alone. -/
def insertByStart (x : FmtMatch) : List FmtMatch → List FmtMatch
  | [] => [x]
  | y :: ys => if x.start < y.start then x :: y :: ys else y :: insertByStart x ys

/-- `matches.sort()`. -/
def sortByStart : List FmtMatch → List FmtMatch
  | [] => []
  | x :: xs => insertByStart x (sortByStart xs)

/-- One `(text, bold, italic, code)` part returned by
`_split_formatted_text`. -/
structure TextPart where
  text : Str
  bold : Bool
  italic : Bool
  code : Bool
deriving DecidableEq, Repr

/-- Python `text[a:b]` for non-negative bounds. -/
def pySlice (s : Str) (a b : Nat) : Str := (s.take b).drop a

/-- The emission loop of `_split_formatted_text`: before each match, the
gap `text[current_pos:start]` is tag-stripped and added when non-empty;
the match's group content is added with its format flags; after the
last match the tag-stripped remainder is added when non-empty. -/
def emitParts (text : Str) : List FmtMatch → Nat → List TextPart
  | [], cur =>
      if cur < text.length then
        let remaining_text := subAnyTag (text.drop cur)
        if remaining_text.isEmpty then [] else [⟨remaining_text, false, false, false⟩]
      else []
  | m :: ms, cur =>
      (if cur < m.start then
        let plain_text := subAnyTag (pySlice text cur m.start)
        if plain_text.isEmpty then [] else [⟨plain_text, false, false, false⟩]
      else []) ++
      ⟨m.content, decide (m.fmt = .bold), decide (m.fmt = .italic), decide (m.fmt = .code)⟩ ::
        emitParts text ms m.stop

/-- `MarkdownToDocx._split_formatted_text`. -/
def split_formatted_text (text : Str) : List TextPart :=
  let t := clean_basic_tags text
  emitParts t (sortByStart (collectMatches t)) 0

/-- The concatenation, in order, of a part list's texts. -/
def partsText (ps : List TextPart) : Str := (ps.map TextPart.text).flatten

/-! ### Well-formed inline markup

For the amended form of the span-concatenation invariant, the input is
a sequence of chunks — plain text followed by one tagged span — plus a
plain tail, with no stray `<` and no newline inside a span's content:
the shape actually produced for a paragraph with non-nested,
non-overlapping markers. -/

/-- Plain text, then one tagged span. -/
structure InlineChunk where
  gap : Str
  tag : PatId
  content : Str

/-- Well-formedness: no `<` in the plain gap or in the span content,
and no newline in the span content. -/
def goodChunk (c : InlineChunk) : Prop :=
  '<' ∉ c.gap ∧ '<' ∉ c.content ∧ '\n' ∉ c.content

instance (c : InlineChunk) : Decidable (goodChunk c) := by
  unfold goodChunk
  infer_instance

/-- The rendered text of one chunk. -/
def renderChunk (c : InlineChunk) : Str :=
  c.gap ++ patOpen c.tag ++ c.content ++ patClose c.tag

/-- The rendered text of a chunk sequence and its plain tail. -/
def renderChunks (cs : List InlineChunk) (tl : Str) : Str :=
  (cs.map renderChunk).flatten ++ tl

/-- The length of one rendered tagged span. -/
def tagLen (c : InlineChunk) : Nat :=
  (patOpen c.tag).length + c.content.length + (patClose c.tag).length

/-- The matches of pattern `q` over a rendered chunk sequence starting
at offset `p`: one per chunk tagged `q`, at the span's position. -/
def chunkMatches (q : PatId) : List InlineChunk → Nat → List FmtMatch
  | [], _ => []
  | c :: rest, p =>
      (if c.tag = q
        then [⟨p + c.gap.length, p + c.gap.length + tagLen c, c.content, patFmt q⟩]
        else []) ++
      chunkMatches q rest (p + c.gap.length + tagLen c)

/-- All spans' matches in chunk order starting at offset `p`. -/
def allMatches : List InlineChunk → Nat → List FmtMatch
  | [], _ => []
  | c :: rest, p =>
      ⟨p + c.gap.length, p + c.gap.length + tagLen c, c.content, patFmt c.tag⟩ ::
      allMatches rest (p + c.gap.length + tagLen c)

/-- The parts a well-formed chunk should produce: its gap (when
non-empty) as a plain part, its content with the pattern's flags. -/
def chunkParts (c : InlineChunk) : List TextPart :=
  (if c.gap.isEmpty then [] else [⟨c.gap, false, false, false⟩]) ++
  [⟨c.content, decide (patFmt c.tag = .bold), decide (patFmt c.tag = .italic),
    decide (patFmt c.tag = .code)⟩]

/-- The expected part list for a well-formed input. -/
def modelParts (cs : List InlineChunk) (tl : Str) : List TextPart :=
  (cs.map chunkParts).flatten ++
  (if tl.isEmpty then [] else [⟨tl, false, false, false⟩])

/-! ## Markdown → DOCX parser (`src/api/markdown_to_docx.py`) -/

/-- The named paragraph styles used by `_parse_markdown_to_document`. -/
inductive DocxOutStyle where
  | customTitle
  | customHeading2
  | customHeading3
  | customNormal
  | customCode
  | customQuote
  | listBullet
deriving DecidableEq, Repr

/-- A paragraph of the generated Word document: its text, named style,
runs (rebuilt by `_apply_text_formatting` where the source calls it),
and whether the decorative left border was applied. -/
structure OutPara where
  text : Str
  style : DocxOutStyle
  runs : List TextPart
  border : Bool
deriving DecidableEq, Repr

/-- `document.add_paragraph(text, style)`: one plain run holding the
text. -/
def addPara (text : Str) (style : DocxOutStyle) : OutPara :=
  ⟨text, style, [⟨text, false, false, false⟩], false⟩

/-- `MarkdownToDocx._apply_text_formatting`: clear the paragraph and
re-add one run per part of `_split_formatted_text(original)`. -/
def apply_text_formatting (p : OutPara) (original : Str) : OutPara :=
  { p with runs := split_formatted_text original }

/-- `MarkdownToDocx._add_border_to_paragraph`: the XML border
manipulation is an external-library call whose outcome is a parameter;
its failure is caught by the bare `except` and leaves the paragraph
border-less. -/
def add_border_to_paragraph (attempt : Except String Unit) (p : OutPara) : OutPara :=
  match attempt with
  | .ok _ => { p with border := true }
  | .error _ => p

/-- The inner `while` of the DOCX parser's list branch: one
`List Bullet` paragraph text per `<li>` line until the closing tag. -/
def scanListItemsD (lines : List Str) (i : Nat) : Option (List Str × Nat) :=
  if _h : i < lines.length then
    match lines.get? i with
    | none => none
    | some l =>
      let ls := pyStrip l
      if ls = "</ul>".data ∨ ls = "</ol>".data then some ([], 0)
      else
        let item := if strStarts "<li>".data ls then [clean_html_tags_docx ls] else []
        match scanListItemsD lines (i + 1) with
        | none => none
        | some (items, d) => some (item ++ items, d + 1)
  else some ([], 0)
termination_by lines.length - i

/-- The main `while` loop of `MarkdownToDocx._parse_markdown_to_document`
over the split HTML lines, appending paragraphs to the document. -/
def parseGoD (battempt : Except String Unit) (lines : List Str) (i : Nat)
    (doc : List OutPara) : Option (List OutPara) :=
  if _h : i < lines.length then
    match lines.get? i with
    | none => none
    | some rawLine =>
      let line := pyStrip rawLine
      if line.isEmpty then
        parseGoD battempt lines (i + 1) doc
      else if strStarts "<h1>".data line && strEnds "</h1>".data line then
        parseGoD battempt lines (i + 1)
          (doc ++ [addPara (clean_html_tags_docx line) .customTitle])
      else if strStarts "<h2>".data line && strEnds "</h2>".data line then
        parseGoD battempt lines (i + 1)
          (doc ++ [addPara (clean_html_tags_docx line) .customHeading2])
      else if strStarts "<h3>".data line && strEnds "</h3>".data line then
        parseGoD battempt lines (i + 1)
          (doc ++ [addPara (clean_html_tags_docx line) .customHeading3])
      else if strStarts "<pre><code>".data line then
        if strEnds "</code></pre>".data line then
          let code_content :=
            replaceAll "</code></pre>".data [] (replaceAll "<pre><code>".data [] line)
          parseGoD battempt lines (i + 1) (doc ++ [addPara code_content .customCode])
        else
          match scanUntilEnd "</code></pre>".data lines (i + 1) with
          | none => none
          | some (collected, d) =>
            match guardGet lines (i + 1 + d) with
            | none => none
            | some closing? =>
              let extra :=
                match closing? with
                | some lj => [replaceAll "</code></pre>".data [] lj]
                | none => []
              let code_content :=
                List.intercalate "\n".data
                  ((replaceAll "<pre><code>".data [] line :: collected) ++ extra)
              parseGoD battempt lines (i + 1 + d + 1)
                (doc ++ [addPara code_content .customCode])
      else if strStarts "<blockquote>".data line then
        if strEnds "</blockquote>".data line then
          let quote_content :=
            replaceAll "</blockquote>".data [] (replaceAll "<blockquote>".data [] line)
          parseGoD battempt lines (i + 1)
            (doc ++ [add_border_to_paragraph battempt
              (addPara (clean_html_tags_docx quote_content) .customQuote)])
        else
          match scanUntilEnd "</blockquote>".data lines (i + 1) with
          | none => none
          | some (collected, d) =>
            match guardGet lines (i + 1 + d) with
            | none => none
            | some closing? =>
              let extra :=
                match closing? with
                | some lj => [replaceAll "</blockquote>".data [] lj]
                | none => []
              let quote_content :=
                List.intercalate " ".data
                  ((replaceAll "<blockquote>".data [] line :: collected) ++ extra)
              parseGoD battempt lines (i + 1 + d + 1)
                (doc ++ [add_border_to_paragraph battempt
                  (addPara (clean_html_tags_docx quote_content) .customQuote)])
      else if strStarts "<ul>".data line || strStarts "<ol>".data line then
        match scanListItemsD lines (i + 1) with
        | none => none
        | some (items, d) =>
          parseGoD battempt lines (i + 1 + d + 1)
            (doc ++ items.map (fun t => addPara t .listBullet))
      else if strStarts "<p>".data line && strEnds "</p>".data line then
        let text := clean_html_tags_docx line
        parseGoD battempt lines (i + 1)
          (doc ++ [apply_text_formatting (addPara text .customNormal) text])
      else
        let clean_text := clean_html_tags_docx line
        if clean_text.isEmpty then
          parseGoD battempt lines (i + 1) doc
        else
          parseGoD battempt lines (i + 1)
            (doc ++ [apply_text_formatting (addPara clean_text .customNormal) rawLine])
  else some doc
termination_by lines.length - i

/-- `MarkdownToDocx._parse_markdown_to_document`, from the line split of
the intermediate HTML onward. -/
def parse_markdown_to_document (battempt : Except String Unit) (html : Str) :
    Option (List OutPara) :=
  parseGoD battempt (splitOnChar '\n' html) 0 []

/-! ## Public conversion entry points

Every public entry point wraps its body in `try: ... except Exception:
return False`.  Calls into external libraries (reportlab document
creation and build, `markdown2.markdown`, python-docx `Document()` and
`save`, pandas/openpyxl construction and save, temp-file writes) are
modelled as explicit `Except` outcome parameters; a result of
`.error` would mean an exception escaping to the caller. -/

/-- `try: body except Exception: return False`. -/
def pyTry (body : Except String Bool) : Except String Bool :=
  match body with
  | .ok b => .ok b
  | .error _ => .ok false

/-- `MarkdownToPDFReportLab.markdown_text_to_pdf`: create the document,
parse (the `markdown2` call happens inside the parse step), build,
report success; any exception yields `False`. -/
def markdown_text_to_pdf (docCreate : Except String Unit) (mdOut : Except String Str)
    (build : List RLElem → Except String Unit) : Except String Bool :=
  pyTry (
    match docCreate with
    | .error e => .error e
    | .ok _ =>
      match mdOut with
      | .error e => .error e
      | .ok html =>
        match parse_markdown_to_elements html with
        | none => .error "IndexError"
        | some elements =>
          match build elements with
          | .error e => .error e
          | .ok _ => .ok true)

/-- `MarkdownToDocx.markdown_text_to_docx`: create the document, set up
styles, parse into it, save; any exception yields `False`. -/
def markdown_text_to_docx (docCreate setupStyles battempt : Except String Unit)
    (mdOut : Except String Str) (save : List OutPara → Except String Unit) :
    Except String Bool :=
  pyTry (
    match docCreate with
    | .error e => .error e
    | .ok _ =>
      match setupStyles with
      | .error e => .error e
      | .ok _ =>
        match mdOut with
        | .error e => .error e
        | .ok html =>
          match parse_markdown_to_document battempt html with
          | none => .error "IndexError"
          | some doc =>
            match save doc with
            | .error e => .error e
            | .ok _ => .ok true)

/-- `JsonToExcel.json_to_excel_file`: reject an empty or non-list input
with `False`, then build the DataFrame and workbook, apply formatting
best-effort (its failures are swallowed inside `_apply_formatting`),
save, and report success; any other exception yields `False`. -/
def json_to_excel_file (data : JData) (dfCreate wbCreate : Except String Unit)
    (fmtApply : Except String Unit) (save : Except String Unit)
    (apply_formatting : Bool) : Except String Bool :=
  pyTry (
    match data with
    | .nonlist => .ok false
    | .list [] => .ok false
    | .list (_ :: _) =>
      match dfCreate with
      | .error e => .error e
      | .ok _ =>
        match wbCreate with
        | .error e => .error e
        | .ok _ =>
          let _ : Unit :=
            if apply_formatting then
              match fmtApply with
              | .ok _ => ()
              | .error _ => ()
            else ()
          match save with
          | .error e => .error e
          | .ok _ => .ok true)

/-- `JsonToExcel.json_string_to_excel`: parse the JSON string, validate,
and only then convert. -/
def json_string_to_excel (parse : Except String JData)
    (dfCreate wbCreate : Except String Unit) (fmtApply : Except String Unit)
    (save : Except String Unit) (apply_formatting : Bool) : Except String Bool :=
  pyTry (
    match parse with
    | .error e => .error e
    | .ok data =>
      if (validate_json_data data).1 then
        json_to_excel_file data dfCreate wbCreate fmtApply save apply_formatting
      else
        .ok false)

/-- `DocxToPdf.create_pdf`: build the story; `True` on success, `False`
on a build exception. -/
def create_pdf (content : List StoryItem) (build : List StoryItem → Except String Unit) :
    Bool :=
  match build content with
  | .ok _ => true
  | .error _ => false

/-- `DocxToPdf.convert_docx_content_to_pdf`: stage the input bytes,
open and extract in stored order (`extract_ordered_content` re-raises
into this handler), render; any exception yields `False`. -/
def convert_docx_content_to_pdf (tmpWrite : Except String Unit)
    (docOpen : Except String (List BodyChild))
    (build : List StoryItem → Except String Unit) : Except String Bool :=
  pyTry (
    match tmpWrite with
    | .error e => .error e
    | .ok _ =>
      match docOpen with
      | .error e => .error e
      | .ok body =>
        let content := extract_ordered_content body
        .ok (create_pdf content build))

/-! ## Theorems -/

/-- The scan fuel is immaterial once it covers the text length. -/
theorem scanSubF_congr (m : Str → Option (Str × Nat)) :
    ∀ (fuel fuel' : Nat) (s : Str), s.length ≤ fuel → s.length ≤ fuel' →
      scanSubF m fuel s = scanSubF m fuel' s := by
  intro fuel
  induction fuel with
  | zero =>
    intro fuel' s h _
    have hs : s = [] := List.length_eq_zero.mp (by omega)
    subst hs
    cases fuel' <;> rfl
  | succ n ih =>
    intro fuel' s h h'
    cases s with
    | nil => cases fuel' <;> rfl
    | cons c cs =>
      cases fuel' with
      | zero => exact absurd h' (by simp)
      | succ n' =>
        rcases hm : m (c :: cs) with _ | ⟨repl, k⟩
        · simp only [scanSubF, hm]
          exact congrArg (c :: ·) (ih n' cs (by simp at h; omega) (by simp at h'; omega))
        · simp only [scanSubF, hm]
          refine congrArg (repl ++ ·) (ih n' _ ?_ ?_) <;>
            · have := List.length_drop (k - 1) cs
              simp at h h'
              omega

/-- `scanSub` on the empty string. -/
theorem scanSub_nil (m : Str → Option (Str × Nat)) : scanSub m [] = [] := rfl

/-- The step equation of `scanSub`: fire the matcher at the head or move
over one character. -/
theorem scanSub_cons (m : Str → Option (Str × Nat)) (c : Char) (cs : Str) :
    scanSub m (c :: cs) =
      match m (c :: cs) with
      | some (repl, n) => repl ++ scanSub m (cs.drop (n - 1))
      | none => c :: scanSub m cs := by
  show scanSubF m (c :: cs).length (c :: cs) = _
  rcases hm : m (c :: cs) with _ | ⟨repl, k⟩
  · simp only [List.length_cons, scanSubF, hm]
    rfl
  · simp only [List.length_cons, scanSubF, hm]
    exact congrArg (repl ++ ·)
      (scanSubF_congr m cs.length _ _
        (by have := List.length_drop (k - 1) cs; omega) (le_refl _))

/-- The finditer fuel is immaterial once it covers the text length. -/
theorem finditerWrapF_congr (opn cls : Str) :
    ∀ (fuel fuel' : Nat) (s : Str) (p : Nat), s.length ≤ fuel → s.length ≤ fuel' →
      finditerWrapF opn cls fuel s p = finditerWrapF opn cls fuel' s p := by
  intro fuel
  induction fuel with
  | zero =>
    intro fuel' s p h _
    have hs : s = [] := List.length_eq_zero.mp (by omega)
    subst hs
    cases fuel' <;> rfl
  | succ n ih =>
    intro fuel' s p h h'
    cases s with
    | nil => cases fuel' <;> rfl
    | cons c cs =>
      cases fuel' with
      | zero => exact absurd h' (by simp)
      | succ n' =>
        rcases hm : matchWrapAt opn cls (c :: cs) with _ | ⟨content, k⟩
        · simp only [finditerWrapF, hm]
          exact ih n' cs (p + 1) (by simp at h; omega) (by simp at h'; omega)
        · simp only [finditerWrapF, hm]
          refine congrArg (_ :: ·) (ih n' _ (p + k) ?_ ?_) <;>
            · have := List.length_drop (k - 1) cs
              simp at h h'
              omega

/-- `finditerWrap` on the empty string. -/
theorem finditerWrap_nil (opn cls : Str) (p : Nat) : finditerWrap opn cls [] p = [] := rfl

/-- The step equation of `finditerWrap`. -/
theorem finditerWrap_cons (opn cls : Str) (c : Char) (cs : Str) (p : Nat) :
    finditerWrap opn cls (c :: cs) p =
      match matchWrapAt opn cls (c :: cs) with
      | some (content, n) =>
          (p, p + n, content) :: finditerWrap opn cls (cs.drop (n - 1)) (p + n)
      | none => finditerWrap opn cls cs (p + 1) := by
  show finditerWrapF opn cls (c :: cs).length (c :: cs) p = _
  rcases hm : matchWrapAt opn cls (c :: cs) with _ | ⟨content, k⟩
  · simp only [List.length_cons, finditerWrapF, hm]
    rfl
  · simp only [List.length_cons, finditerWrapF, hm]
    exact congrArg (_ :: ·)
      (finditerWrapF_congr opn cls cs.length _ _ _
        (by have := List.length_drop (k - 1) cs; omega) (le_refl _))

attribute [irreducible] clean_html_tags_rl replaceAll

/-- C1: for every DOCX body with interleaved paragraphs and tables, the
sequence returned by `extract_ordered_content` preserves the stored
element order: a table that appears between two (non-blank) paragraphs
in the body appears between those paragraphs' entries in the output. -/
theorem extract_ordered_content_preserves_order
    (l1 l2 l3 l4 : List BodyChild) (p1 p2 : DocxPara) (t : List (List Str))
    (h1 : (pyStrip (paraText p1)).isEmpty = false)
    (h2 : (pyStrip (paraText p2)).isEmpty = false)
    (ht : t ≠ []) :
    extract_ordered_content
        (l1 ++ BodyChild.para p1 :: l2 ++ BodyChild.table t :: l3 ++ BodyChild.para p2 :: l4)
      = extract_ordered_content l1
          ++ classifyPara p1 :: extract_ordered_content l2
          ++ StoryItem.table (t.map (fun row => row.map convertCell)) :: extract_ordered_content l3
          ++ classifyPara p2 :: extract_ordered_content l4 := by
  have htm : (t.map (fun row => row.map convertCell)).isEmpty = false := by
    cases t with
    | nil => exact absurd rfl ht
    | cons r rs => simp [List.isEmpty]
  simp only [extract_ordered_content, List.filterMap_append, List.filterMap_cons,
    convertBlock, h1, h2, htm, Bool.false_eq_true, if_false]

/-- C1 witness: a concrete interleaved body. -/
theorem extract_ordered_content_preserves_order_witness :
    extract_ordered_content
        ([] ++ BodyChild.para ⟨"Normal".data, [⟨"a".data, false, false, false⟩]⟩ ::
         [] ++ BodyChild.table [["x".data]] ::
         [] ++ BodyChild.para ⟨"Normal".data, [⟨"b".data, false, false, false⟩]⟩ :: [])
      = extract_ordered_content []
          ++ classifyPara ⟨"Normal".data, [⟨"a".data, false, false, false⟩]⟩ ::
         extract_ordered_content []
          ++ StoryItem.table ([["x".data]].map (fun row => row.map convertCell)) ::
         extract_ordered_content []
          ++ classifyPara ⟨"Normal".data, [⟨"b".data, false, false, false⟩]⟩ ::
         extract_ordered_content [] :=
  extract_ordered_content_preserves_order [] [] [] []
    ⟨"Normal".data, [⟨"a".data, false, false, false⟩]⟩
    ⟨"Normal".data, [⟨"b".data, false, false, false⟩]⟩
    [["x".data]] (by decide) (by decide) (by decide)

/-- `strStarts` decomposes the scanned string. -/
theorem strStarts_iff (p : Str) : ∀ s, strStarts p s = true ↔ ∃ t, s = p ++ t := by
  induction p with
  | nil => intro s; simp [strStarts]
  | cons a ps ih =>
    intro s
    cases s with
    | nil => simp [strStarts]
    | cons c cs =>
      rw [show strStarts (a :: ps) (c :: cs) = (a == c && strStarts ps cs) from rfl,
        Bool.and_eq_true, beq_iff_eq, ih cs]
      constructor
      · rintro ⟨rfl, t, rfl⟩; exact ⟨t, rfl⟩
      · rintro ⟨t, ht⟩
        rw [List.cons_append] at ht
        injection ht with h1 h2
        exact ⟨h1.symm, t, h2⟩

/-- The code/blockquote close scan always terminates without error. -/
theorem scanUntilEnd_isSome (sfx : Str) (lines : List Str) :
    ∀ i, (scanUntilEnd sfx lines i).isSome := by
  have H : ∀ n i, lines.length - i ≤ n → (scanUntilEnd sfx lines i).isSome := by
    intro n
    induction n with
    | zero =>
      intro i hle
      have h : ¬ i < lines.length := by omega
      rw [scanUntilEnd]; simp [h]
    | succ n ih =>
      intro i hle
      rw [scanUntilEnd]
      by_cases h : i < lines.length
      · obtain ⟨l, hl⟩ : ∃ l, lines.get? i = some l := ⟨_, List.get?_eq_get h⟩
        simp only [dif_pos h, hl]
        by_cases he : strEnds sfx (pyStrip l) = true
        · simp [he]
        · rw [Bool.not_eq_true] at he
          simp only [he]
          have := ih (i + 1) (by omega)
          rcases hrec : scanUntilEnd sfx lines (i + 1) with _ | ⟨rest, d⟩
          · rw [hrec] at this; cases this
          · simp [Bool.false_eq_true]
      · simp [h]
  exact fun i => H (lines.length - i) i (le_refl _)

/-- The list-item scan always terminates without error. -/
theorem scanListItems_isSome (lines : List Str) :
    ∀ i, (scanListItems lines i).isSome := by
  have H : ∀ n i, lines.length - i ≤ n → (scanListItems lines i).isSome := by
    intro n
    induction n with
    | zero =>
      intro i hle
      have h : ¬ i < lines.length := by omega
      rw [scanListItems]; simp [h]
    | succ n ih =>
      intro i hle
      rw [scanListItems]
      by_cases h : i < lines.length
      · obtain ⟨l, hl⟩ : ∃ l, lines.get? i = some l := ⟨_, List.get?_eq_get h⟩
        simp only [dif_pos h, hl]
        by_cases he : pyStrip l = "</ul>".data ∨ pyStrip l = "</ol>".data
        · simp [he]
        · simp only [if_neg he]
          have := ih (i + 1) (by omega)
          rcases hrec : scanListItems lines (i + 1) with _ | ⟨items, d⟩
          · rw [hrec] at this; cases this
          · simp
      · simp [h]
  exact fun i => H (lines.length - i) i (le_refl _)

/-- The guarded line access never raises. -/
theorem guardGet_isSome (lines : List Str) (j : Nat) : (guardGet lines j).isSome := by
  unfold guardGet
  by_cases h : j < lines.length
  · obtain ⟨l, hl⟩ : ∃ l, lines.get? j = some l := ⟨_, List.get?_eq_get h⟩
    simp [h, hl]
  · simp [h]

/-- The parser main loop never raises, from any state. -/
theorem parseGo_isSome (lines : List Str) :
    ∀ i cur acc, (parseGo lines i cur acc).isSome := by
  have H : ∀ n i cur acc, lines.length - i ≤ n → (parseGo lines i cur acc).isSome := by
    intro n
    induction n with
    | zero =>
      intro i cur acc hle
      have h : ¬ i < lines.length := by omega
      rw [parseGo]; simp [h]
    | succ n ih =>
      intro i cur acc hle
      rw [parseGo]
      by_cases h : i < lines.length
      · obtain ⟨l, hl⟩ : ∃ l, lines.get? i = some l := ⟨_, List.get?_eq_get h⟩
        simp only [dif_pos h, hl]
        obtain ⟨⟨col1, d1⟩, hs1⟩ : ∃ p, scanUntilEnd "</code></pre>".data lines (i + 1) = some p :=
          Option.isSome_iff_exists.mp (scanUntilEnd_isSome _ lines (i + 1))
        obtain ⟨⟨col2, d2⟩, hs2⟩ : ∃ p, scanUntilEnd "</blockquote>".data lines (i + 1) = some p :=
          Option.isSome_iff_exists.mp (scanUntilEnd_isSome _ lines (i + 1))
        obtain ⟨⟨items, d3⟩, hs3⟩ : ∃ p, scanListItems lines (i + 1) = some p :=
          Option.isSome_iff_exists.mp (scanListItems_isSome lines (i + 1))
        rw [hs1, hs2, hs3]
        repeat' split
        all_goals first
          | exact ih _ _ _ (by omega)
          | (rename_i hg
             simp at hg)
          | (rename_i hg
             exact absurd hg (Option.isSome_iff_ne_none.mp (guardGet_isSome _ _)))
      · simp [h]
  exact fun i cur acc => H (lines.length - i) i cur acc (le_refl _)

/-- C4: for every input string handed to the Markdown parse operation —
modelled from the intermediate HTML string onward, since every input
passes through the external `markdown2.markdown` call first — the
line-scanning loop of `_parse_markdown_to_elements` returns an ordered
element list and never raises (its guarded index accesses never fail). -/
theorem parse_markdown_never_fails (html : Str) :
    (parse_markdown_to_elements html).isSome :=
  parseGo_isSome (splitOnChar '\n' html) 0 [] []

/-- When no line from `i` on ends (stripped) with `sfx`, the close scan
collects every remaining raw line and stops at the end of input. -/
theorem scanUntilEnd_noClose (sfx : Str) (lines : List Str) :
    ∀ i, (∀ j, i ≤ j → j < lines.length →
        strEnds sfx (pyStrip (lines.getD j [])) = false) →
      scanUntilEnd sfx lines i = some (lines.drop i, lines.length - i) := by
  have H : ∀ n i, lines.length - i ≤ n →
      (∀ j, i ≤ j → j < lines.length →
        strEnds sfx (pyStrip (lines.getD j [])) = false) →
      scanUntilEnd sfx lines i = some (lines.drop i, lines.length - i) := by
    intro n
    induction n with
    | zero =>
      intro i hle hno
      have h : ¬ i < lines.length := by omega
      rw [scanUntilEnd]
      simp only [dif_neg h]
      rw [List.drop_eq_nil_of_le (by omega), Nat.sub_eq_zero_of_le (by omega)]
    | succ n ih =>
      intro i hle hno
      by_cases h : i < lines.length
      · obtain ⟨l, hl⟩ : ∃ l, lines.get? i = some l := ⟨_, List.get?_eq_get h⟩
        have hld : lines.getD i [] = l := by
          rw [List.getD_eq_get?, hl]; rfl
        have hend : strEnds sfx (pyStrip l) = false := by
          have := hno i (le_refl i) h
          rwa [hld] at this
        rw [scanUntilEnd]
        simp only [dif_pos h, hl, hend, Bool.false_eq_true, if_false]
        rw [ih (i + 1) (by omega)
          (fun j hij hjl => hno j (by omega) hjl)]
        have hdrop : lines.drop i = l :: lines.drop (i + 1) := by
          rw [List.drop_eq_getElem_cons h]
          congr 1
          have := List.get?_eq_getElem? lines i
          rw [hl] at this
          exact (List.getElem?_eq_some.mp this.symm).2
        rw [hdrop]
        have : lines.length - (i + 1) + 1 = lines.length - i := by omega
        show some (l :: List.drop (i + 1) lines, lines.length - (i + 1) + 1)
            = some (l :: List.drop (i + 1) lines, lines.length - i)
        rw [this]
      · have : ¬ lines.length - i ≤ 0 → False := by omega
        rw [scanUntilEnd]
        simp only [dif_neg h]
        rw [List.drop_eq_nil_of_le (by omega), Nat.sub_eq_zero_of_le (by omega)]
  exact fun i hno => H (lines.length - i) i (le_refl _) hno

/-- The main loop over all-blank lines consumes them and returns the
accumulated elements unchanged. -/
theorem parseGo_blank (lines : List Str) :
    ∀ i acc, (∀ j, i ≤ j → j < lines.length → pyStrip (lines.getD j []) = []) →
      parseGo lines i [] acc = some acc := by
  have H : ∀ n i acc, lines.length - i ≤ n →
      (∀ j, i ≤ j → j < lines.length → pyStrip (lines.getD j []) = []) →
      parseGo lines i [] acc = some acc := by
    intro n
    induction n with
    | zero =>
      intro i acc hle hbl
      have h : ¬ i < lines.length := by omega
      rw [parseGo]
      simp [h, flushPar]
    | succ n ih =>
      intro i acc hle hbl
      by_cases h : i < lines.length
      · obtain ⟨l, hl⟩ : ∃ l, lines.get? i = some l := ⟨_, List.get?_eq_get h⟩
        have hld : lines.getD i [] = l := by
          rw [List.getD_eq_get?, hl]; rfl
        have hblank : pyStrip l = [] := by
          have := hbl i (le_refl i) h
          rwa [hld] at this
        rw [parseGo]
        simp only [dif_pos h, hl, hblank, List.isEmpty_nil, if_pos]
        have : acc ++ flushPar [] = acc := by simp [flushPar]
        rw [this]
        exact ih (i + 1) acc (by omega) (fun j hij hjl => hbl j (by omega) hjl)
      · rw [parseGo]
        simp [h, flushPar]
  exact fun i acc hbl => H (lines.length - i) i acc (le_refl _) hbl

/-- C6: a fenced code block or blockquote left unterminated at end of
input is closed implicitly at end-of-file, in both parsers: from a line
opening a code block (resp. blockquote) with no closing line anywhere
after it, the ReportLab parser still emits one code element whose text
newline-joins all remaining lines (resp. one quote paragraph
space-joining them) plus its usual trailing spacer, and the DOCX parser
still emits one Custom Code paragraph newline-joining them (resp. one
bordered Custom Quote paragraph space-joining them), instead of
dropping the content or failing. -/
theorem unterminated_block_closed_at_eof
    (battempt : Except String Unit)
    (lines : List Str) (i : Nat) (cur : List Str) (acc : List RLElem)
    (doc : List OutPara) (raw : Str) :
    (lines.get? i = some raw →
      strStarts "<pre><code>".data (pyStrip raw) = true →
      strEnds "</code></pre>".data (pyStrip raw) = false →
      (∀ j, i + 1 ≤ j → j < lines.length →
        strEnds "</code></pre>".data (pyStrip (lines.getD j [])) = false) →
      parseGo lines i cur acc = some (acc ++ flushPar cur ++
        [RLElem.preformatted (List.intercalate "\n".data
          (replaceAll "<pre><code>".data [] (pyStrip raw) :: lines.drop (i + 1))),
         RLElem.spacer 1 12])) ∧
    (lines.get? i = some raw →
      strStarts "<blockquote>".data (pyStrip raw) = true →
      strEnds "</blockquote>".data (pyStrip raw) = false →
      (∀ j, i + 1 ≤ j → j < lines.length →
        strEnds "</blockquote>".data (pyStrip (lines.getD j [])) = false) →
      parseGo lines i cur acc = some (acc ++ flushPar cur ++
        [RLElem.paragraph (clean_html_tags_rl (List.intercalate " ".data
          (replaceAll "<blockquote>".data [] (pyStrip raw) :: lines.drop (i + 1))))
          RLStyle.customQuote,
         RLElem.spacer 1 12])) ∧
    (lines.get? i = some raw →
      strStarts "<pre><code>".data (pyStrip raw) = true →
      strEnds "</code></pre>".data (pyStrip raw) = false →
      (∀ j, i + 1 ≤ j → j < lines.length →
        strEnds "</code></pre>".data (pyStrip (lines.getD j [])) = false) →
      parseGoD battempt lines i doc = some (doc ++
        [addPara (List.intercalate "\n".data
          (replaceAll "<pre><code>".data [] (pyStrip raw) :: lines.drop (i + 1)))
          DocxOutStyle.customCode])) ∧
    (lines.get? i = some raw →
      strStarts "<blockquote>".data (pyStrip raw) = true →
      strEnds "</blockquote>".data (pyStrip raw) = false →
      (∀ j, i + 1 ≤ j → j < lines.length →
        strEnds "</blockquote>".data (pyStrip (lines.getD j [])) = false) →
      parseGoD battempt lines i doc = some (doc ++
        [add_border_to_paragraph battempt
          (addPara (clean_html_tags_docx (List.intercalate " ".data
            (replaceAll "<blockquote>".data [] (pyStrip raw) :: lines.drop (i + 1))))
            DocxOutStyle.customQuote)])) := by
  refine ⟨?_, ?_, ?_, ?_⟩
  · intro hraw hstart hnotend hnoclose
    have h : i < lines.length := by
      rcases List.get?_eq_some.mp hraw with ⟨h, -⟩
      exact h
    obtain ⟨t, ht⟩ := (strStarts_iff _ _).mp hstart
    rw [parseGo]
    simp only [dif_pos h, hraw]
    rw [ht] at hnotend ⊢
    have e0 : List.isEmpty ("<pre><code>".data ++ t) = false := rfl
    have e1 : strStarts "<h1>".data ("<pre><code>".data ++ t) = false := rfl
    have e2 : strStarts "<h2>".data ("<pre><code>".data ++ t) = false := rfl
    have e3 : strStarts "<h3>".data ("<pre><code>".data ++ t) = false := rfl
    have e4 : strStarts "<pre><code>".data ("<pre><code>".data ++ t) = true := rfl
    simp only [e0, e1, e2, e3, e4, hnotend, Bool.false_and, Bool.false_eq_true,
      if_false, if_true]
    rw [scanUntilEnd_noClose "</code></pre>".data lines (i + 1) hnoclose]
    have hlen : i + 1 + (lines.length - (i + 1)) = lines.length := by omega
    simp only [hlen]
    have hg : guardGet lines lines.length = some none := by
      simp [guardGet]
    simp only [hg]
    rw [parseGo]
    have hnl : ¬ lines.length + 1 < lines.length := by omega
    simp [hnl, flushPar]
  · intro hraw hstart hnotend hnoclose
    have h : i < lines.length := by
      rcases List.get?_eq_some.mp hraw with ⟨h, -⟩
      exact h
    obtain ⟨t, ht⟩ := (strStarts_iff _ _).mp hstart
    rw [parseGo]
    simp only [dif_pos h, hraw]
    rw [ht] at hnotend ⊢
    have e0 : List.isEmpty ("<blockquote>".data ++ t) = false := rfl
    have e1 : strStarts "<h1>".data ("<blockquote>".data ++ t) = false := rfl
    have e2 : strStarts "<h2>".data ("<blockquote>".data ++ t) = false := rfl
    have e3 : strStarts "<h3>".data ("<blockquote>".data ++ t) = false := rfl
    have e4 : strStarts "<pre><code>".data ("<blockquote>".data ++ t) = false := rfl
    have e5 : strStarts "<blockquote>".data ("<blockquote>".data ++ t) = true := rfl
    simp only [e0, e1, e2, e3, e4, e5, hnotend, Bool.false_and, Bool.false_eq_true,
      if_false, if_true]
    rw [scanUntilEnd_noClose "</blockquote>".data lines (i + 1) hnoclose]
    have hlen : i + 1 + (lines.length - (i + 1)) = lines.length := by omega
    simp only [hlen]
    have hg : guardGet lines lines.length = some none := by
      simp [guardGet]
    simp only [hg]
    rw [parseGo]
    have hnl : ¬ lines.length + 1 < lines.length := by omega
    simp [hnl, flushPar]
  · intro hraw hstart hnotend hnoclose
    have h : i < lines.length := by
      rcases List.get?_eq_some.mp hraw with ⟨h, -⟩
      exact h
    obtain ⟨t, ht⟩ := (strStarts_iff _ _).mp hstart
    rw [parseGoD]
    simp only [dif_pos h, hraw]
    rw [ht] at hnotend ⊢
    have e0 : List.isEmpty ("<pre><code>".data ++ t) = false := rfl
    have e1 : strStarts "<h1>".data ("<pre><code>".data ++ t) = false := rfl
    have e2 : strStarts "<h2>".data ("<pre><code>".data ++ t) = false := rfl
    have e3 : strStarts "<h3>".data ("<pre><code>".data ++ t) = false := rfl
    have e4 : strStarts "<pre><code>".data ("<pre><code>".data ++ t) = true := rfl
    simp only [e0, e1, e2, e3, e4, hnotend, Bool.false_and, Bool.false_eq_true,
      if_false, if_true]
    rw [scanUntilEnd_noClose "</code></pre>".data lines (i + 1) hnoclose]
    have hlen : i + 1 + (lines.length - (i + 1)) = lines.length := by omega
    simp only [hlen]
    have hg : guardGet lines lines.length = some none := by
      simp [guardGet]
    simp only [hg]
    rw [parseGoD]
    have hnl : ¬ lines.length + 1 < lines.length := by omega
    simp [hnl]
  · intro hraw hstart hnotend hnoclose
    have h : i < lines.length := by
      rcases List.get?_eq_some.mp hraw with ⟨h, -⟩
      exact h
    obtain ⟨t, ht⟩ := (strStarts_iff _ _).mp hstart
    rw [parseGoD]
    simp only [dif_pos h, hraw]
    rw [ht] at hnotend ⊢
    have e0 : List.isEmpty ("<blockquote>".data ++ t) = false := rfl
    have e1 : strStarts "<h1>".data ("<blockquote>".data ++ t) = false := rfl
    have e2 : strStarts "<h2>".data ("<blockquote>".data ++ t) = false := rfl
    have e3 : strStarts "<h3>".data ("<blockquote>".data ++ t) = false := rfl
    have e4 : strStarts "<pre><code>".data ("<blockquote>".data ++ t) = false := rfl
    have e5 : strStarts "<blockquote>".data ("<blockquote>".data ++ t) = true := rfl
    simp only [e0, e1, e2, e3, e4, e5, hnotend, Bool.false_and, Bool.false_eq_true,
      if_false, if_true]
    rw [scanUntilEnd_noClose "</blockquote>".data lines (i + 1) hnoclose]
    have hlen : i + 1 + (lines.length - (i + 1)) = lines.length := by omega
    simp only [hlen]
    have hg : guardGet lines lines.length = some none := by
      simp [guardGet]
    simp only [hg]
    rw [parseGoD]
    have hnl : ¬ lines.length + 1 < lines.length := by omega
    simp [hnl]

/-- C6 witness: the concrete two-line inputs `<pre><code>x` + `y` and
`<blockquote>q` + `r`, neither ever closed, fed to both parsers. -/
theorem unterminated_block_closed_at_eof_witness :
    (parseGo ["<pre><code>x".data, "y".data] 0 [] [] = some
      [RLElem.preformatted (List.intercalate "\n".data
        (replaceAll "<pre><code>".data [] (pyStrip "<pre><code>x".data) ::
          ["<pre><code>x".data, "y".data].drop 1)),
       RLElem.spacer 1 12]) ∧
    (parseGo ["<blockquote>q".data, "r".data] 0 [] [] = some
      [RLElem.paragraph (clean_html_tags_rl (List.intercalate " ".data
        (replaceAll "<blockquote>".data [] (pyStrip "<blockquote>q".data) ::
          ["<blockquote>q".data, "r".data].drop 1))) RLStyle.customQuote,
       RLElem.spacer 1 12]) ∧
    (parseGoD (.ok ()) ["<pre><code>x".data, "y".data] 0 [] = some
      [addPara (List.intercalate "\n".data
        (replaceAll "<pre><code>".data [] (pyStrip "<pre><code>x".data) ::
          ["<pre><code>x".data, "y".data].drop 1)) DocxOutStyle.customCode]) ∧
    (parseGoD (.ok ()) ["<blockquote>q".data, "r".data] 0 [] = some
      [add_border_to_paragraph (.ok ())
        (addPara (clean_html_tags_docx (List.intercalate " ".data
          (replaceAll "<blockquote>".data [] (pyStrip "<blockquote>q".data) ::
            ["<blockquote>q".data, "r".data].drop 1))) DocxOutStyle.customQuote)]) := by
  refine ⟨?_, ?_, ?_, ?_⟩
  · have := (unterminated_block_closed_at_eof (.ok ())
      ["<pre><code>x".data, "y".data] 0 [] [] [] "<pre><code>x".data).1
      rfl (by decide) (by decide) (by decide)
    simpa using this
  · have := (unterminated_block_closed_at_eof (.ok ())
      ["<blockquote>q".data, "r".data] 0 [] [] [] "<blockquote>q".data).2.1
      rfl (by decide) (by decide) (by decide)
    simpa using this
  · have := (unterminated_block_closed_at_eof (.ok ())
      ["<pre><code>x".data, "y".data] 0 [] [] [] "<pre><code>x".data).2.2.1
      rfl (by decide) (by decide) (by decide)
    simpa using this
  · have := (unterminated_block_closed_at_eof (.ok ())
      ["<blockquote>q".data, "r".data] 0 [] [] [] "<blockquote>q".data).2.2.2
      rfl (by decide) (by decide) (by decide)
    simpa using this

/-- The enumerate scan finds no non-dict element iff all elements are
dictionaries. -/
theorem firstNonDict_eq_none_iff :
    ∀ (l : List JItem) (i : Nat),
      firstNonDict l i = none ↔ ∀ it ∈ l, ∃ ks, it = JItem.dict ks := by
  intro l
  induction l with
  | nil => intro i; simp [firstNonDict]
  | cons x rest ih =>
    intro i
    cases x with
    | dict ks => simp [firstNonDict, ih (i + 1)]
    | nondict => simp [firstNonDict]

/-- The key-compatibility scan reports nothing iff every scanned item's
key symmetric difference with the first key set is within bound. -/
theorem firstBadKeys_eq_none_iff (first : Finset String) :
    ∀ (l : List JItem) (i : Nat),
      firstBadKeys first l i = none ↔
        ∀ it ∈ l, 2 * (symmDiff (itemKeys it) first).card ≤ first.card := by
  intro l
  induction l with
  | nil => intro i; simp [firstBadKeys]
  | cons x rest ih =>
    intro i
    simp only [firstBadKeys]
    by_cases h : itemKeys x ≠ first ∧ 2 * (symmDiff (itemKeys x) first).card > first.card
    · rw [if_pos h]
      constructor
      · intro hc; cases hc
      · intro hall
        exact absurd (hall x (List.mem_cons_self x rest)) (by omega)
    · rw [if_neg h, ih (i + 1)]
      constructor
      · intro hrest it hit
        rcases List.mem_cons.mp hit with rfl | hmem
        · rcases not_and_or.mp h with heq | hle
          · rw [not_not.mp heq, symmDiff_self]
            simp
          · omega
        · exact hrest it hmem
      · intro hall it hit
        exact hall it (List.mem_cons_of_mem x hit)

/-- `validate_json_data` accepts exactly the inputs described by claim
C2. -/
theorem validate_eq_claimC2 (d : JData) :
    (validate_json_data d).1 = true ↔ claimC2Valid d := by
  cases d with
  | nonlist => simp [validate_json_data, claimC2Valid]
  | list items =>
    cases items with
    | nil => simp [validate_json_data, claimC2Valid]
    | cons first rest =>
      simp only [validate_json_data, claimC2Valid]
      rcases hnd : firstNonDict (first :: rest) 0 with _ | i
      · rcases hbk : firstBadKeys (itemKeys first) rest 1 with _ | i
        · simp only []
          constructor
          · intro _
            exact ⟨(firstNonDict_eq_none_iff (first :: rest) 0).mp hnd,
                   (firstBadKeys_eq_none_iff (itemKeys first) rest 1).mp hbk⟩
          · intro _; trivial
        · simp only []
          constructor
          · intro hc; cases hc
          · rintro ⟨-, hkeys⟩
            have : firstBadKeys (itemKeys first) rest 1 = none :=
              (firstBadKeys_eq_none_iff (itemKeys first) rest 1).mpr hkeys
            rw [this] at hbk; cases hbk
      · simp only []
        constructor
        · intro hc; cases hc
        · rintro ⟨hdict, -⟩
          have : firstNonDict (first :: rest) 0 = none :=
            (firstNonDict_eq_none_iff (first :: rest) 0).mpr hdict
          rw [this] at hnd; cases hnd

/-- C2: `validate_json_data` returns valid exactly when the input is a
non-empty list of dictionaries whose records' key sets each stay within
a 50%-of-the-first-record symmetric difference, and in particular a list
of identically-keyed records is valid while a record disjoint from the
first record's non-empty key set makes it invalid. -/
theorem validate_json_data_correct :
    (∀ d : JData, (validate_json_data d).1 = true ↔ claimC2Valid d) ∧
    (∀ (ks : Finset String) (n : Nat),
        (validate_json_data (.list (List.replicate (n + 1) (JItem.dict ks)))).1 = true) ∧
    (∀ (ks1 ks2 : Finset String) (pre post : List JItem),
        ks1 ≠ ∅ → ks1 ∩ ks2 = ∅ →
        (validate_json_data
            (.list (JItem.dict ks1 :: (pre ++ JItem.dict ks2 :: post)))).1 = false) := by
  refine ⟨validate_eq_claimC2, ?_, ?_⟩
  · intro ks n
    rw [validate_eq_claimC2]
    rw [List.replicate_succ]
    refine ⟨?_, ?_⟩
    · intro it hit
      rcases List.mem_cons.mp hit with rfl | hm
      · exact ⟨ks, rfl⟩
      · exact ⟨ks, List.eq_of_mem_replicate hm⟩
    · intro it hit
      have : it = JItem.dict ks := List.eq_of_mem_replicate hit
      rw [this]
      simp [itemKeys, symmDiff_self]
  · intro ks1 ks2 pre post hne hdisj
    have hdisj' : Disjoint ks1 ks2 := Finset.disjoint_iff_inter_eq_empty.mpr hdisj
    rw [Bool.eq_false_iff]
    intro htrue
    rcases (validate_eq_claimC2 _).mp htrue with ⟨-, hkeys⟩
    have hmem : JItem.dict ks2 ∈ pre ++ JItem.dict ks2 :: post := by
      simp
    have hb := hkeys (JItem.dict ks2) hmem
    have hsd : symmDiff (itemKeys (JItem.dict ks2)) (itemKeys (JItem.dict ks1))
        = ks2 ∪ ks1 := by
      simp only [itemKeys]
      rw [Disjoint.symmDiff_eq_sup hdisj'.symm]
      rfl
    rw [hsd, Finset.card_union_of_disjoint hdisj'.symm] at hb
    have hpos : 0 < ks1.card := Finset.card_pos.mpr (Finset.nonempty_iff_ne_empty.mpr hne)
    simp only [itemKeys] at hb
    omega

/-- C2 witness: a concrete run for each conjunct's hypotheses — two
identically-keyed records are valid, and a record disjoint from the
first's key set is invalid. -/
theorem validate_json_data_correct_witness :
    (validate_json_data (.list (List.replicate (0 + 1) (JItem.dict {"a"})))).1 = true ∧
    (validate_json_data (.list (JItem.dict {"a"} :: ([] ++ JItem.dict {"b"} :: [])))).1
      = false :=
  ⟨validate_json_data_correct.2.1 {"a"} 0,
   validate_json_data_correct.2.2 {"a"} {"b"} [] [] (by decide) (by decide)⟩

/-- C5 counterexample: on an entirely empty document body (no paragraphs,
no tables) `extract_ordered_content` returns the empty sequence, not a
single placeholder paragraph — its output has length 0, never 1. -/
theorem extract_ordered_content_empty_no_placeholder :
    extract_ordered_content [] = [] ∧ (extract_ordered_content []).length ≠ 1 := by
  exact ⟨rfl, by decide⟩

/-- C5 amended: if the input document body is entirely empty (no
paragraphs and no tables), the DOCX reader returns the empty sequence
(rather than a placeholder paragraph). -/
theorem extract_ordered_content_empty :
    extract_ordered_content [] = [] := rfl

/-- C3 counterexample: for the paragraph text `<p><b>a<i>b</i>c</b></p>`
(nested bold/italic markers) the spans produced by
`_split_formatted_text` concatenate to `a<i>b</i>cbc` — with raw tags
kept and the nested content duplicated — while the paragraph's visible
tag-stripped text is `abc`. -/
theorem split_formatted_text_nested_counterexample :
    partsText (split_formatted_text "<p><b>a<i>b</i>c</b></p>".data)
        = "a<i>b</i>cbc".data ∧
    clean_html_tags_docx "<p><b>a<i>b</i>c</b></p>".data = "abc".data ∧
    partsText (split_formatted_text "<p><b>a<i>b</i>c</b></p>".data)
        ≠ clean_html_tags_docx "<p><b>a<i>b</i>c</b></p>".data := by
  refine ⟨by decide, by decide, by decide⟩

/-- A left-to-right substitution scan moves unchanged over text in which
the matcher never fires (here: matchers that only fire at `<`). -/
theorem scanSub_append_skip (m : Str → Option (Str × Nat))
    (h1 : ∀ c cs, c ≠ '<' → m (c :: cs) = none) :
    ∀ (u s : Str), '<' ∉ u → scanSub m (u ++ s) = u ++ scanSub m s := by
  intro u
  induction u with
  | nil => intro s _; rfl
  | cons c cu ih =>
    intro s hu
    have hc : c ≠ '<' := fun he => hu (he ▸ List.mem_cons_self c cu)
    rw [List.cons_append, scanSub_cons]
    rw [h1 c (cu ++ s) hc]
    show c :: scanSub m (cu ++ s) = c :: cu ++ scanSub m s
    rw [ih s (fun hm => hu (List.mem_cons_of_mem c hm)), List.cons_append]

/-- A `<`-free string passes through the scan unchanged. -/
theorem scanSub_noLt (m : Str → Option (Str × Nat))
    (h1 : ∀ c cs, c ≠ '<' → m (c :: cs) = none)
    (u : Str) (hu : '<' ∉ u) : scanSub m u = u := by
  have h := scanSub_append_skip m h1 u [] hu
  rw [List.append_nil] at h
  rw [h, scanSub_nil, List.append_nil]

/-- The scan steps over a segment at whose head the matcher fails and
whose tail is `<`-free. -/
theorem scanSub_tag_skip (m : Str → Option (Str × Nat))
    (h1 : ∀ c cs, c ≠ '<' → m (c :: cs) = none)
    (u : Str) (hu : ∀ s, m (u ++ s) = none) (htail : '<' ∉ u.tail) :
    ∀ s, scanSub m (u ++ s) = u ++ scanSub m s := by
  intro s
  cases u with
  | nil => rfl
  | cons a ar =>
    rw [List.cons_append, scanSub_cons]
    have hm := hu s
    rw [List.cons_append] at hm
    rw [hm]
    show a :: scanSub m (ar ++ s) = a :: ar ++ scanSub m s
    rw [scanSub_append_skip m h1 ar s htail, List.cons_append]

/-- The scan consumes a segment that the matcher matches in full with an
empty replacement. -/
theorem scanSub_consume (m : Str → Option (Str × Nat)) (u : Str) (hne : u ≠ [])
    (hm : ∀ s, m (u ++ s) = some ([], u.length)) :
    ∀ s, scanSub m (u ++ s) = scanSub m s := by
  intro s
  cases u with
  | nil => exact absurd rfl hne
  | cons a ar =>
    rw [List.cons_append, scanSub_cons]
    have h := hm s
    rw [List.cons_append] at h
    rw [h]
    show [] ++ scanSub m ((ar ++ s).drop ((a :: ar).length - 1)) = scanSub m s
    have hl : (a :: ar).length - 1 = ar.length := by simp
    rw [hl, List.drop_left]
    rfl

/-- Unfolding a rendered chunk sequence one chunk at a time. -/
theorem renderChunks_cons (c : InlineChunk) (cs : List InlineChunk) (tl : Str) :
    renderChunks (c :: cs) tl = renderChunk c ++ renderChunks cs tl := by
  simp [renderChunks]

/-- The scan moves unchanged over one well-formed chunk, for matchers
that fail at `<`-free heads, at every span opening tag, and at every
span closing tag. -/
theorem scanSub_chunk_skip (m : Str → Option (Str × Nat))
    (h1 : ∀ c cs, c ≠ '<' → m (c :: cs) = none)
    (h2 : ∀ (q : PatId) (rest : Str), m (patOpen q ++ rest) = none)
    (h3 : ∀ (q : PatId) (rest : Str), m (patClose q ++ rest) = none)
    (c : InlineChunk) (hc : goodChunk c) :
    ∀ s, scanSub m (renderChunk c ++ s) = renderChunk c ++ scanSub m s := by
  intro s
  have hopenAll : ∀ q : PatId, '<' ∉ (patOpen q).tail := by
    intro q; cases q <;> decide
  have hcloseAll : ∀ q : PatId, '<' ∉ (patClose q).tail := by
    intro q; cases q <;> decide
  have hopen : '<' ∉ (patOpen c.tag).tail := hopenAll c.tag
  have hclose : '<' ∉ (patClose c.tag).tail := hcloseAll c.tag
  rw [show renderChunk c ++ s
      = c.gap ++ (patOpen c.tag ++ (c.content ++ (patClose c.tag ++ s))) by
    simp [renderChunk]]
  rw [scanSub_append_skip m h1 _ _ hc.1]
  rw [scanSub_tag_skip m h1 (patOpen c.tag) (fun s => h2 c.tag s) hopen]
  rw [scanSub_append_skip m h1 _ _ hc.2.1]
  rw [scanSub_tag_skip m h1 (patClose c.tag) (fun s => h3 c.tag s) hclose]
  simp [renderChunk]

/-- The scan leaves a whole well-formed rendering unchanged, for
matchers failing everywhere on it. -/
theorem scanSub_render_id (m : Str → Option (Str × Nat))
    (h1 : ∀ c cs, c ≠ '<' → m (c :: cs) = none)
    (h2 : ∀ (q : PatId) (rest : Str), m (patOpen q ++ rest) = none)
    (h3 : ∀ (q : PatId) (rest : Str), m (patClose q ++ rest) = none) :
    ∀ (cs : List InlineChunk) (tl : Str), (∀ c ∈ cs, goodChunk c) → '<' ∉ tl →
      scanSub m (renderChunks cs tl) = renderChunks cs tl := by
  intro cs
  induction cs with
  | nil =>
    intro tl _ htl
    show scanSub m (([] : List Str).flatten ++ tl) = ([] : List Str).flatten ++ tl
    simpa using scanSub_noLt m h1 tl htl
  | cons c rest ih =>
    intro tl hg htl
    rw [renderChunks_cons,
      scanSub_chunk_skip m h1 h2 h3 c (hg c (List.mem_cons_self c rest)),
      ih tl (fun x hx => hg x (List.mem_cons_of_mem c hx)) htl]

/-- A pattern beginning with a character other than the scanned string's
head cannot match. -/
theorem strStarts_cons_head {a c : Char} {p s : Str} (h : a ≠ c) :
    strStarts (a :: p) (c :: s) = false := by
  rw [show strStarts (a :: p) (c :: s) = (a == c && strStarts p s) from rfl,
    beq_eq_false_iff_ne.mpr h, Bool.false_and]

/-- Every string starts with its own prefix. -/
theorem strStarts_append_self (p t : Str) : strStarts p (p ++ t) = true :=
  (strStarts_iff p _).mpr ⟨t, rfl⟩

/-- A wrap pattern only fires at a `<`. -/
theorem matchWrapAt_head_ne (q : PatId) (c : Char) (cs : Str) (hc : c ≠ '<') :
    matchWrapAt (patOpen q) (patClose q) (c :: cs) = none := by
  have h : strStarts (patOpen q) (c :: cs) = false := by
    cases q <;> exact strStarts_cons_head (Ne.symm hc)
  unfold matchWrapAt
  rw [h]
  rfl

/-- `<[^>]+>` only fires at a `<`. -/
theorem mAnyTag_head_ne (c : Char) (cs : Str) (hc : c ≠ '<') : mAnyTag (c :: cs) = none := by
  unfold mAnyTag
  split
  · rename_i rest heq
    injection heq with h1 _
    exact absurd h1 hc
  · rfl

/-- A wrap pattern does not fire at a different span's opening tag. -/
theorem matchWrapAt_open_ne (q q' : PatId) (hne : q' ≠ q) (X : Str) :
    matchWrapAt (patOpen q) (patClose q) (patOpen q' ++ X) = none := by
  cases q <;> cases q' <;> first
    | exact absurd rfl hne
    | rfl

/-- A wrap pattern does not fire at any span's closing tag. -/
theorem matchWrapAt_at_close (q q' : PatId) (X : Str) :
    matchWrapAt (patOpen q) (patClose q) (patClose q' ++ X) = none := by
  cases q <;> cases q' <;> rfl

/-- The lazy close search stops exactly at the first occurrence of the
closing literal, which for a `<`-free, newline-free content is the one
right after it. -/
theorem findCloseNoNl_boundary (cls cr : Str) (hcls : cls = '<' :: cr) :
    ∀ (content rest : Str), '<' ∉ content → '\n' ∉ content →
      findCloseNoNl cls (content ++ (cls ++ rest))
        = some (content, content.length + cls.length) := by
  intro content
  induction content with
  | nil =>
    intro rest _ _
    show findCloseNoNl cls (cls ++ rest) = some ([], 0 + cls.length)
    rw [hcls, List.cons_append]
    simp only [findCloseNoNl]
    rw [← List.cons_append, ← hcls, strStarts_append_self]
    simp
  | cons a ac ih =>
    intro rest hlt hnl
    have ha : a ≠ '<' := fun he => hlt (he ▸ List.mem_cons_self a ac)
    have hanl : a ≠ '\n' := fun he => hnl (he ▸ List.mem_cons_self a ac)
    show findCloseNoNl cls (a :: (ac ++ (cls ++ rest))) = _
    simp only [findCloseNoNl]
    rw [hcls, strStarts_cons_head (Ne.symm ha), ← hcls]
    rw [beq_eq_false_iff_ne.mpr hanl]
    simp only [Bool.false_eq_true, if_false]
    rw [ih rest (fun hm => hlt (List.mem_cons_of_mem a hm))
      (fun hm => hnl (List.mem_cons_of_mem a hm))]
    show some (a :: ac, ac.length + cls.length + 1) = _
    have : ac.length + cls.length + 1 = (a :: ac).length + cls.length := by
      simp [List.length_cons]; omega
    rw [this]

/-- A wrap pattern matches its own well-formed span in full, yielding
the content and the span length. -/
theorem matchWrapAt_self (q : PatId) (content rest : Str)
    (h1 : '<' ∉ content) (h2 : '\n' ∉ content) :
    matchWrapAt (patOpen q) (patClose q)
        (patOpen q ++ (content ++ (patClose q ++ rest)))
      = some (content, (patOpen q).length + (content.length + (patClose q).length)) := by
  unfold matchWrapAt
  rw [strStarts_append_self]
  simp only [if_true]
  rw [List.drop_left]
  rw [findCloseNoNl_boundary (patClose q) (patClose q).tail
    (by cases q <;> rfl) content rest h1 h2]

/-- No span opening tag is empty. -/
theorem patOpen_ne_nil (q : PatId) : patOpen q ≠ [] := by cases q <;> decide

/-- A span opening tag is `<` followed by a `<`-free tail. -/
theorem patOpen_cons (q : PatId) : patOpen q = '<' :: (patOpen q).tail := by
  cases q <;> rfl

/-- The tail of a span opening tag is `<`-free. -/
theorem patOpen_tail_noLt (q : PatId) : '<' ∉ (patOpen q).tail := by cases q <;> decide

/-- The tail of a span closing tag is `<`-free. -/
theorem patClose_tail_noLt (q : PatId) : '<' ∉ (patClose q).tail := by cases q <;> decide

/-- No span closing tag is empty. -/
theorem patClose_ne_nil (q : PatId) : patClose q ≠ [] := by cases q <;> decide

/-- `finditer` passes over `<`-free text, advancing the offset. -/
theorem finditer_append_skip (opn cls : Str)
    (h1 : ∀ c cs, c ≠ '<' → matchWrapAt opn cls (c :: cs) = none) :
    ∀ (u s : Str) (p : Nat), '<' ∉ u →
      finditerWrap opn cls (u ++ s) p = finditerWrap opn cls s (p + u.length) := by
  intro u
  induction u with
  | nil => intro s p _; simp
  | cons c cu ih =>
    intro s p hu
    have hc : c ≠ '<' := fun he => hu (he ▸ List.mem_cons_self c cu)
    rw [List.cons_append, finditerWrap_cons, h1 c _ hc]
    show finditerWrap opn cls (cu ++ s) (p + 1) = _
    rw [ih s (p + 1) (fun hm => hu (List.mem_cons_of_mem c hm))]
    have : p + 1 + cu.length = p + (c :: cu).length := by
      simp [List.length_cons]; omega
    rw [this]

/-- `finditer` finds nothing in `<`-free text. -/
theorem finditer_noLt (opn cls : Str)
    (h1 : ∀ c cs, c ≠ '<' → matchWrapAt opn cls (c :: cs) = none)
    (u : Str) (p : Nat) (hu : '<' ∉ u) : finditerWrap opn cls u p = [] := by
  have h := finditer_append_skip opn cls h1 u [] p hu
  rw [List.append_nil] at h
  rw [h, finditerWrap_nil]

/-- `finditer` passes over a segment at whose head the pattern fails and
whose tail is `<`-free. -/
theorem finditer_tag_skip (opn cls : Str)
    (h1 : ∀ c cs, c ≠ '<' → matchWrapAt opn cls (c :: cs) = none)
    (u : Str) (hu : ∀ s, matchWrapAt opn cls (u ++ s) = none) (htail : '<' ∉ u.tail) :
    ∀ (s : Str) (p : Nat),
      finditerWrap opn cls (u ++ s) p = finditerWrap opn cls s (p + u.length) := by
  intro s p
  cases u with
  | nil => simp
  | cons a ar =>
    rw [List.cons_append, finditerWrap_cons]
    have hm := hu s
    rw [List.cons_append] at hm
    rw [hm]
    show finditerWrap opn cls (ar ++ s) (p + 1) = _
    rw [finditer_append_skip opn cls h1 ar s (p + 1) htail]
    have : p + 1 + ar.length = p + (a :: ar).length := by
      simp [List.length_cons]; omega
    rw [this]

/-- `finditer` consumes a segment matched in full, emitting one match. -/
theorem finditer_consume (opn cls : Str) (u content : Str) (hne : u ≠ [])
    (hm : ∀ s, matchWrapAt opn cls (u ++ s) = some (content, u.length)) :
    ∀ (s : Str) (p : Nat),
      finditerWrap opn cls (u ++ s) p
        = (p, p + u.length, content) :: finditerWrap opn cls s (p + u.length) := by
  intro s p
  cases u with
  | nil => exact absurd rfl hne
  | cons a ar =>
    rw [List.cons_append, finditerWrap_cons]
    have h := hm s
    rw [List.cons_append] at h
    rw [h]
    show (p, p + (a :: ar).length, content) ::
        finditerWrap opn cls ((ar ++ s).drop ((a :: ar).length - 1)) (p + (a :: ar).length)
      = _
    have hl : (a :: ar).length - 1 = ar.length := by simp
    rw [hl, List.drop_left]

/-- `finditer` over one well-formed chunk: exactly one match when the
chunk carries the scanned pattern, none otherwise, and the scan resumes
after the chunk. -/
theorem finditer_chunk (q : PatId) (c : InlineChunk) (hc : goodChunk c) :
    ∀ (s : Str) (p : Nat),
      finditerWrap (patOpen q) (patClose q) (renderChunk c ++ s) p
        = (if c.tag = q
            then [(p + c.gap.length, p + c.gap.length + tagLen c, c.content)]
            else []) ++
          finditerWrap (patOpen q) (patClose q) s (p + c.gap.length + tagLen c) := by
  intro s p
  have h1 : ∀ a as, a ≠ '<' → matchWrapAt (patOpen q) (patClose q) (a :: as) = none :=
    fun a as ha => matchWrapAt_head_ne q a as ha
  rw [show renderChunk c ++ s
      = c.gap ++ (patOpen c.tag ++ (c.content ++ (patClose c.tag ++ s))) by
    simp [renderChunk]]
  rw [finditer_append_skip _ _ h1 c.gap _ p hc.1]
  by_cases htag : c.tag = q
  · subst htag
    rw [show patOpen c.tag ++ (c.content ++ (patClose c.tag ++ s))
        = (patOpen c.tag ++ c.content ++ patClose c.tag) ++ s by simp]
    have hulen : (patOpen c.tag ++ c.content ++ patClose c.tag).length = tagLen c := by
      simp [tagLen, List.length_append]
      omega
    rw [finditer_consume _ _ (patOpen c.tag ++ c.content ++ patClose c.tag) c.content
      (by
        intro h
        rcases List.append_eq_nil.mp h with ⟨h1', -⟩
        rcases List.append_eq_nil.mp h1' with ⟨h2', -⟩
        exact patOpen_ne_nil c.tag h2')
      (by
        intro s'
        have h := matchWrapAt_self c.tag c.content s' hc.2.1 hc.2.2
        rw [show patOpen c.tag ++ (c.content ++ (patClose c.tag ++ s'))
            = (patOpen c.tag ++ c.content ++ patClose c.tag) ++ s' by simp] at h
        rw [h, hulen]
        rw [show tagLen c
            = (patOpen c.tag).length + (c.content.length + (patClose c.tag).length) by
          simp [tagLen, Nat.add_assoc]])
      s _]
    rw [hulen]
    simp
  · rw [show patOpen c.tag ++ (c.content ++ (patClose c.tag ++ s))
        = (patOpen c.tag ++ c.content) ++ (patClose c.tag ++ s) by simp]
    rw [finditer_tag_skip _ _ h1 (patOpen c.tag ++ c.content)
      (by
        intro s'
        rw [show (patOpen c.tag ++ c.content) ++ s'
            = patOpen c.tag ++ (c.content ++ s') by simp]
        exact matchWrapAt_open_ne q c.tag htag _)
      (by
        rw [patOpen_cons c.tag, List.cons_append]
        show '<' ∉ (patOpen c.tag).tail ++ c.content
        intro hm
        rcases List.mem_append.mp hm with hm | hm
        · exact patOpen_tail_noLt c.tag hm
        · exact hc.2.1 hm)]
    rw [finditer_tag_skip _ _ h1 (patClose c.tag)
      (fun s' => matchWrapAt_at_close q c.tag s') (patClose_tail_noLt c.tag)]
    rw [if_neg htag]
    have : p + c.gap.length + (patOpen c.tag ++ c.content).length + (patClose c.tag).length
        = p + c.gap.length + tagLen c := by
      simp [tagLen, List.length_append]; omega
    rw [this]
    rfl

/-- `finditer` over a full well-formed rendering produces exactly the
chunk matches of its pattern, in order. -/
theorem finditer_render (q : PatId) :
    ∀ (cs : List InlineChunk) (tl : Str) (p : Nat),
      (∀ c ∈ cs, goodChunk c) → '<' ∉ tl →
      finditerWrap (patOpen q) (patClose q) (renderChunks cs tl) p
        = (chunkMatches q cs p).map (fun m => (m.start, m.stop, m.content)) := by
  intro cs
  induction cs with
  | nil =>
    intro tl p _ htl
    show finditerWrap _ _ (([] : List Str).flatten ++ tl) p = _
    simp only [List.flatten_nil, List.nil_append, chunkMatches, List.map_nil]
    exact finditer_noLt _ _ (fun a as ha => matchWrapAt_head_ne q a as ha) tl p htl
  | cons c rest ih =>
    intro tl p hg htl
    rw [renderChunks_cons]
    rw [finditer_chunk q c (hg c (List.mem_cons_self c rest)) _ p]
    rw [ih tl _ (fun x hx => hg x (List.mem_cons_of_mem c hx)) htl]
    simp only [chunkMatches, List.map_append]
    by_cases htag : c.tag = q
    · simp [htag]
    · simp [htag]

/-- Every chunk match of a pattern carries that pattern's format. -/
theorem chunkMatches_fmt (q : PatId) :
    ∀ (cs : List InlineChunk) (p : Nat) (m : FmtMatch),
      m ∈ chunkMatches q cs p → m.fmt = patFmt q := by
  intro cs
  induction cs with
  | nil =>
    intro p m hm
    simp [chunkMatches] at hm
  | cons c rest ih =>
    intro p m hm
    simp only [chunkMatches] at hm
    rcases List.mem_append.mp hm with hm | hm
    · by_cases htag : c.tag = q
      · rw [if_pos htag] at hm
        rw [List.mem_singleton.mp hm]
      · rw [if_neg htag] at hm
        cases hm
    · exact ih _ m hm

/-- The per-pattern match collection over a well-formed rendering. -/
theorem matchesFor_render (q : PatId) (cs : List InlineChunk) (tl : Str)
    (hg : ∀ c ∈ cs, goodChunk c) (htl : '<' ∉ tl) :
    matchesFor q (renderChunks cs tl) = chunkMatches q cs 0 := by
  unfold matchesFor
  rw [finditer_render q cs tl 0 hg htl, List.map_map]
  have hcg : ∀ m ∈ chunkMatches q cs 0,
      ((fun m : Nat × Nat × Str => (⟨m.1, m.2.1, m.2.2, patFmt q⟩ : FmtMatch)) ∘
        (fun m : FmtMatch => (m.start, m.stop, m.content))) m = id m := by
    intro m hm
    cases m with
    | mk s e ct f =>
      have := chunkMatches_fmt q cs 0 _ hm
      simp only [Function.comp, id]
      simp at this
      rw [this]
  rw [List.map_congr_left hcg, List.map_id]

/-- `<[^>]+>` consumes one well-formed chunk's tags, keeping gap and
content. -/
theorem subAnyTag_chunk (c : InlineChunk) (hc : goodChunk c) :
    ∀ s, scanSub mAnyTag (renderChunk c ++ s)
      = c.gap ++ (c.content ++ scanSub mAnyTag s) := by
  intro s
  rw [show renderChunk c ++ s
      = c.gap ++ (patOpen c.tag ++ (c.content ++ (patClose c.tag ++ s))) by
    simp [renderChunk]]
  rw [scanSub_append_skip mAnyTag mAnyTag_head_ne _ _ hc.1]
  rw [scanSub_consume mAnyTag (patOpen c.tag) (patOpen_ne_nil c.tag)
    (by
      rcases c with ⟨g, q, ct⟩
      intro s'
      cases q <;> rfl)]
  rw [scanSub_append_skip mAnyTag mAnyTag_head_ne _ _ hc.2.1]
  rw [scanSub_consume mAnyTag (patClose c.tag)
    (patClose_ne_nil c.tag)
    (by
      rcases c with ⟨g, q, ct⟩
      intro s'
      cases q <;> rfl)]

/-- `<[^>]+>` over a full well-formed rendering strips exactly the span
tags: what is left is the visible text. -/
theorem subAnyTag_render :
    ∀ (cs : List InlineChunk) (tl : Str), (∀ c ∈ cs, goodChunk c) → '<' ∉ tl →
      subAnyTag (renderChunks cs tl)
        = (cs.map fun c => c.gap ++ c.content).flatten ++ tl := by
  intro cs
  induction cs with
  | nil =>
    intro tl _ htl
    show scanSub mAnyTag (([] : List Str).flatten ++ tl) = ([] : List Str).flatten ++ tl
    simp only [List.flatten_nil, List.nil_append]
    exact scanSub_noLt mAnyTag mAnyTag_head_ne tl htl
  | cons c rest ih =>
    intro tl hg htl
    show scanSub mAnyTag (renderChunks (c :: rest) tl) = _
    rw [renderChunks_cons, subAnyTag_chunk c (hg c (List.mem_cons_self c rest))]
    rw [show scanSub mAnyTag (renderChunks rest tl) = subAnyTag (renderChunks rest tl) from rfl]
    rw [ih tl (fun x hx => hg x (List.mem_cons_of_mem c hx)) htl]
    simp

/-- Inserting into the sort keeps a permutation. -/
theorem insertByStart_perm (x : FmtMatch) :
    ∀ l : List FmtMatch, (insertByStart x l).Perm (x :: l) := by
  intro l
  induction l with
  | nil => exact List.Perm.refl _
  | cons y ys ih =>
    unfold insertByStart
    by_cases h : x.start < y.start
    · rw [if_pos h]
    · rw [if_neg h]
      exact (ih.cons y).trans (List.Perm.swap x y ys)

/-- The sort is a permutation of its input. -/
theorem sortByStart_perm : ∀ l : List FmtMatch, (sortByStart l).Perm l := by
  intro l
  induction l with
  | nil => exact List.Perm.refl _
  | cons x xs ih => exact (insertByStart_perm x (sortByStart xs)).trans (ih.cons x)

/-- Insertion preserves sortedness by start. -/
theorem insertByStart_sorted (x : FmtMatch) :
    ∀ l : List FmtMatch, l.Pairwise (fun a b => a.start ≤ b.start) →
      (insertByStart x l).Pairwise (fun a b => a.start ≤ b.start) := by
  intro l
  induction l with
  | nil => intro _; exact List.pairwise_singleton _ _
  | cons y ys ih =>
    intro hl
    rcases List.pairwise_cons.mp hl with ⟨hy, hys⟩
    unfold insertByStart
    by_cases h : x.start < y.start
    · rw [if_pos h]
      refine List.pairwise_cons.mpr ⟨?_, hl⟩
      intro z hz
      rcases List.mem_cons.mp hz with rfl | hz
      · omega
      · have := hy z hz; omega
    · rw [if_neg h]
      refine List.pairwise_cons.mpr ⟨?_, ih hys⟩
      intro z hz
      have hz' := (insertByStart_perm x ys).mem_iff.mp hz
      rcases List.mem_cons.mp hz' with rfl | hz'
      · omega
      · exact hy z hz'

/-- The sort's output is sorted by start. -/
theorem sortByStart_sorted : ∀ l : List FmtMatch,
    (sortByStart l).Pairwise (fun a b => a.start ≤ b.start) := by
  intro l
  induction l with
  | nil => exact List.Pairwise.nil
  | cons x xs ih => exact insertByStart_sorted x (sortByStart xs) ih

/-- Weak sortedness upgrades to strict given distinct starts. -/
theorem pairwise_lt_of_le_nodup :
    ∀ l : List FmtMatch, l.Pairwise (fun a b => a.start ≤ b.start) →
      (l.map FmtMatch.start).Nodup →
      l.Pairwise (fun a b => a.start < b.start) := by
  intro l
  induction l with
  | nil => intro _ _; exact List.Pairwise.nil
  | cons x xs ih =>
    intro hle hnd
    rcases List.pairwise_cons.mp hle with ⟨hx, hxs⟩
    rw [List.map_cons, List.nodup_cons] at hnd
    refine List.pairwise_cons.mpr ⟨?_, ih hxs hnd.2⟩
    intro z hz
    have h1 := hx z hz
    have h2 : x.start ≠ z.start :=
      fun he => hnd.1 (he ▸ List.mem_map_of_mem FmtMatch.start hz)
    omega

/-- Every rendered span is non-trivially long. -/
theorem tagLen_pos (c : InlineChunk) : 0 < tagLen c := by
  have h : ∀ q : PatId, 0 < (patOpen q).length := by intro q; cases q <;> decide
  have := h c.tag
  simp [tagLen]
  omega

/-- Matches of later chunks start no earlier than the offset. -/
theorem allMatches_ge : ∀ (cs : List InlineChunk) (p : Nat) (m : FmtMatch),
    m ∈ allMatches cs p → p ≤ m.start := by
  intro cs
  induction cs with
  | nil => intro p m hm; simp [allMatches] at hm
  | cons c rest ih =>
    intro p m hm
    simp only [allMatches] at hm
    rcases List.mem_cons.mp hm with rfl | hm
    · simp
    · have := ih _ m hm; omega

/-- The in-order match list is strictly sorted by start. -/
theorem allMatches_sorted : ∀ (cs : List InlineChunk) (p : Nat),
    (allMatches cs p).Pairwise (fun a b => a.start < b.start) := by
  intro cs
  induction cs with
  | nil => intro p; exact List.Pairwise.nil
  | cons c rest ih =>
    intro p
    simp only [allMatches]
    refine List.pairwise_cons.mpr ⟨?_, ih _⟩
    intro m hm
    have h1 := allMatches_ge rest _ m hm
    have h2 := tagLen_pos c
    simp
    omega

/-- The five per-pattern match lists concatenated are a permutation of
the in-order match list. -/
theorem chunkMatches_concat_perm :
    ∀ (cs : List InlineChunk) (p : Nat),
      (chunkMatches .strongTag cs p ++ (chunkMatches .bTag cs p ++
        (chunkMatches .emTag cs p ++ (chunkMatches .iTag cs p ++
          chunkMatches .codeTag cs p)))).Perm (allMatches cs p) := by
  intro cs
  induction cs with
  | nil => intro p; simp [chunkMatches, allMatches]
  | cons c rest ih =>
    intro p
    simp only [chunkMatches, allMatches]
    cases hq : c.tag
    case strongTag =>
      simp only [hq, reduceCtorEq, if_true, if_false, List.nil_append,
        if_pos rfl, List.singleton_append, List.cons_append]
      exact List.Perm.cons _ (ih _)
    case bTag =>
      simp only [hq, reduceCtorEq, if_true, if_false, List.nil_append,
        if_pos rfl, List.singleton_append, List.cons_append]
      exact List.perm_middle.trans (List.Perm.cons _ (ih _))
    case emTag =>
      simp only [hq, reduceCtorEq, if_true, if_false, List.nil_append,
        if_pos rfl, List.singleton_append, List.cons_append]
      exact ((List.Perm.append_left _ List.perm_middle).trans List.perm_middle).trans
        (List.Perm.cons _ (ih _))
    case iTag =>
      simp only [hq, reduceCtorEq, if_true, if_false, List.nil_append,
        if_pos rfl, List.singleton_append, List.cons_append]
      exact (((List.Perm.append_left _ (List.Perm.append_left _ List.perm_middle)).trans
        (List.Perm.append_left _ List.perm_middle)).trans List.perm_middle).trans
        (List.Perm.cons _ (ih _))
    case codeTag =>
      simp only [hq, reduceCtorEq, if_true, if_false, List.nil_append,
        if_pos rfl, List.singleton_append, List.cons_append]
      exact ((((List.Perm.append_left _ (List.Perm.append_left _
        (List.Perm.append_left _ List.perm_middle))).trans
        (List.Perm.append_left _ (List.Perm.append_left _ List.perm_middle))).trans
        (List.Perm.append_left _ List.perm_middle)).trans List.perm_middle).trans
        (List.Perm.cons _ (ih _))

/-- Sorting the collected matches of a well-formed rendering yields the
in-order match list. -/
theorem sort_collect (cs : List InlineChunk) (tl : Str)
    (hg : ∀ c ∈ cs, goodChunk c) (htl : '<' ∉ tl) :
    sortByStart (collectMatches (renderChunks cs tl)) = allMatches cs 0 := by
  have hmf : collectMatches (renderChunks cs tl)
      = chunkMatches .strongTag cs 0 ++ (chunkMatches .bTag cs 0 ++
          (chunkMatches .emTag cs 0 ++ (chunkMatches .iTag cs 0 ++
            chunkMatches .codeTag cs 0))) := by
    unfold collectMatches
    rw [matchesFor_render .strongTag cs tl hg htl, matchesFor_render .bTag cs tl hg htl,
      matchesFor_render .emTag cs tl hg htl, matchesFor_render .iTag cs tl hg htl,
      matchesFor_render .codeTag cs tl hg htl]
    simp [List.append_assoc]
  have hperm : (sortByStart (collectMatches (renderChunks cs tl))).Perm (allMatches cs 0) :=
    (sortByStart_perm _).trans (by rw [hmf]; exact chunkMatches_concat_perm cs 0)
  have hsortedLe := sortByStart_sorted (collectMatches (renderChunks cs tl))
  have hltAll := allMatches_sorted cs 0
  have hndAll : ((allMatches cs 0).map FmtMatch.start).Nodup := by
    rw [List.Nodup, List.pairwise_map]
    exact hltAll.imp (fun h => by omega)
  have hnd : ((sortByStart (collectMatches (renderChunks cs tl))).map FmtMatch.start).Nodup :=
    ((hperm.map FmtMatch.start).nodup_iff).mpr hndAll
  have hsortedLt := pairwise_lt_of_le_nodup _ hsortedLe hnd
  haveI : IsAntisymm FmtMatch (fun a b => a.start < b.start) :=
    ⟨fun a b h1 h2 => absurd h2 (by omega)⟩
  exact List.eq_of_perm_of_sorted hperm hsortedLt hltAll

/-- Slicing out the middle component of a three-part concatenation. -/
theorem pySlice_mid (a b c : Str) :
    pySlice (a ++ (b ++ c)) a.length (a.length + b.length) = b := by
  unfold pySlice
  rw [show a ++ (b ++ c) = (a ++ b) ++ c by simp]
  rw [show a.length + b.length = (a ++ b).length by simp]
  rw [List.take_left, List.drop_left]

/-- A rendered chunk's length. -/
theorem renderChunk_length (c : InlineChunk) :
    (renderChunk c).length = c.gap.length + tagLen c := by
  simp [renderChunk, tagLen, List.length_append]
  omega

/-- The expected parts, one chunk at a time. -/
theorem modelParts_cons (c : InlineChunk) (rest : List InlineChunk) (tl : Str) :
    modelParts (c :: rest) tl = chunkParts c ++ modelParts rest tl := by
  simp [modelParts]

/-- The emission loop over a well-formed rendering with its in-order
matches produces exactly the expected parts. -/
theorem emitParts_model : ∀ (cs : List InlineChunk) (tl pre : Str),
    (∀ c ∈ cs, goodChunk c) → '<' ∉ tl →
    emitParts (pre ++ renderChunks cs tl) (allMatches cs pre.length) pre.length
      = modelParts cs tl := by
  intro cs
  induction cs with
  | nil =>
    intro tl pre _ htl
    show emitParts (pre ++ (([] : List Str).flatten ++ tl)) [] pre.length
      = modelParts [] tl
    simp only [List.flatten_nil, List.nil_append]
    cases tl with
    | nil =>
      simp only [emitParts, modelParts, List.map_nil, List.flatten_nil, List.nil_append,
        List.isEmpty_nil, if_true, List.append_nil]
      rw [if_neg (show ¬ pre.length < pre.length by omega)]
    | cons t ts =>
      simp only [emitParts, modelParts, List.map_nil, List.flatten_nil, List.nil_append]
      rw [if_pos (by simp), List.drop_left]
      rw [show subAnyTag (t :: ts) = scanSub mAnyTag (t :: ts) from rfl,
        scanSub_noLt mAnyTag mAnyTag_head_ne _ htl]
  | cons c rest ih =>
    intro tl pre hg htl
    have hgc := hg c (List.mem_cons_self c rest)
    have htext : pre ++ renderChunks (c :: rest) tl
        = pre ++ (c.gap ++ ((patOpen c.tag ++ c.content ++ patClose c.tag) ++
            renderChunks rest tl)) := by
      rw [renderChunks_cons]
      simp [renderChunk]
    rw [modelParts_cons, htext]
    simp only [allMatches, emitParts]
    have hslice : pySlice
        (pre ++ (c.gap ++ ((patOpen c.tag ++ c.content ++ patClose c.tag) ++
          renderChunks rest tl)))
        pre.length (pre.length + c.gap.length) = c.gap :=
      pySlice_mid pre c.gap _
    have hsub : subAnyTag c.gap = c.gap :=
      scanSub_noLt mAnyTag mAnyTag_head_ne _ hgc.1
    have htail : emitParts
        (pre ++ (c.gap ++ ((patOpen c.tag ++ c.content ++ patClose c.tag) ++
          renderChunks rest tl)))
        (allMatches rest (pre.length + c.gap.length + tagLen c))
        (pre.length + c.gap.length + tagLen c) = modelParts rest tl := by
      have h1 : pre ++ (c.gap ++ ((patOpen c.tag ++ c.content ++ patClose c.tag) ++
          renderChunks rest tl)) = (pre ++ renderChunk c) ++ renderChunks rest tl := by
        simp [renderChunk]
      have h2 : pre.length + c.gap.length + tagLen c = (pre ++ renderChunk c).length := by
        simp [renderChunk_length]
        omega
      rw [h1, h2]
      exact ih tl (pre ++ renderChunk c)
        (fun x hx => hg x (List.mem_cons_of_mem c hx)) htl
    rw [htail, hslice, hsub]
    unfold chunkParts
    rcases hgap : c.gap with _ | ⟨g0, gs⟩
    · simp
    · rw [if_pos (by simp)]
      simp

/-- The expected parts concatenate to the visible text. -/
theorem partsText_model : ∀ (cs : List InlineChunk) (tl : Str),
    partsText (modelParts cs tl) = (cs.map fun c => c.gap ++ c.content).flatten ++ tl := by
  intro cs
  induction cs with
  | nil =>
    intro tl
    cases tl with
    | nil => rfl
    | cons t ts => simp [partsText, modelParts]
  | cons c rest ih =>
    intro tl
    rw [modelParts_cons]
    rw [show partsText (chunkParts c ++ modelParts rest tl)
        = partsText (chunkParts c) ++ partsText (modelParts rest tl) by simp [partsText]]
    rw [ih tl]
    have hcp : partsText (chunkParts c) = c.gap ++ c.content := by
      unfold chunkParts partsText
      rcases hgap : c.gap with _ | ⟨g0, gs⟩ <;> simp
    rw [hcp]
    simp

/-- `_clean_basic_tags` leaves a well-formed, already-trimmed rendering
unchanged: none of the block-tag patterns can fire on it. -/
theorem clean_basic_tags_render (cs : List InlineChunk) (tl : Str)
    (hg : ∀ c ∈ cs, goodChunk c) (htl : '<' ∉ tl)
    (hstrip : pyStrip (renderChunks cs tl) = renderChunks cs tl) :
    clean_basic_tags (renderChunks cs tl) = renderChunks cs tl := by
  unfold clean_basic_tags subOpen subLit subHOpen subHClose
  dsimp only
  rw [scanSub_render_id (mOpenTag "<p".data)
      (by intro c' cs' hc; unfold mOpenTag; rw [strStarts_cons_head (Ne.symm hc)]; rfl)
      (by intro q rest; cases q <;> rfl)
      (by intro q rest; cases q <;> rfl) cs tl hg htl]
  rw [scanSub_render_id (mLit "</p>".data [])
      (by intro c' cs' hc; unfold mLit; rw [strStarts_cons_head (Ne.symm hc)]; rfl)
      (by intro q rest; cases q <;> rfl)
      (by intro q rest; cases q <;> rfl) cs tl hg htl]
  rw [scanSub_render_id (mOpenTag "<li".data)
      (by intro c' cs' hc; unfold mOpenTag; rw [strStarts_cons_head (Ne.symm hc)]; rfl)
      (by intro q rest; cases q <;> rfl)
      (by intro q rest; cases q <;> rfl) cs tl hg htl]
  rw [scanSub_render_id (mLit "</li>".data [])
      (by intro c' cs' hc; unfold mLit; rw [strStarts_cons_head (Ne.symm hc)]; rfl)
      (by intro q rest; cases q <;> rfl)
      (by intro q rest; cases q <;> rfl) cs tl hg htl]
  rw [scanSub_render_id mHOpen
      (by intro c' cs' hc; unfold mHOpen; rw [strStarts_cons_head (Ne.symm hc)]; rfl)
      (by intro q rest; cases q <;> rfl)
      (by intro q rest; cases q <;> rfl) cs tl hg htl]
  rw [scanSub_render_id mHClose
      (by intro c' cs' hc; unfold mHClose; rw [strStarts_cons_head (Ne.symm hc)]; rfl)
      (by intro q rest; cases q <;> rfl)
      (by intro q rest; cases q <;> rfl) cs tl hg htl]
  rw [scanSub_render_id (mOpenTag "<blockquote".data)
      (by intro c' cs' hc; unfold mOpenTag; rw [strStarts_cons_head (Ne.symm hc)]; rfl)
      (by intro q rest; cases q <;> rfl)
      (by intro q rest; cases q <;> rfl) cs tl hg htl]
  rw [scanSub_render_id (mLit "</blockquote>".data [])
      (by intro c' cs' hc; unfold mLit; rw [strStarts_cons_head (Ne.symm hc)]; rfl)
      (by intro q rest; cases q <;> rfl)
      (by intro q rest; cases q <;> rfl) cs tl hg htl]
  exact hstrip

/-- C3 amended: for a paragraph whose markup is well-formed —
non-nested, non-overlapping spans, i.e. plain `<`-free text alternating
with single bold/italic/code spans whose contents contain no `<` and no
newline, with no surrounding whitespace to trim — the ordered span list
produced by `_split_formatted_text` concatenates, in order, to exactly
the paragraph's visible (tag-stripped) text, with no loss and no
duplication.  (The original claim fails for nested/overlapping markers,
see the counterexample.) -/
theorem split_formatted_text_wellformed (cs : List InlineChunk) (tl : Str)
    (hg : ∀ c ∈ cs, goodChunk c) (htl : '<' ∉ tl)
    (hstrip : pyStrip (renderChunks cs tl) = renderChunks cs tl)
    (hstrip2 : pyStrip ((cs.map fun c => c.gap ++ c.content).flatten ++ tl)
      = (cs.map fun c => c.gap ++ c.content).flatten ++ tl) :
    partsText (split_formatted_text (renderChunks cs tl))
      = clean_html_tags_docx (renderChunks cs tl) := by
  unfold split_formatted_text
  dsimp only
  rw [clean_basic_tags_render cs tl hg htl hstrip]
  rw [sort_collect cs tl hg htl]
  have hemit := emitParts_model cs tl [] hg htl
  simp only [List.nil_append, List.length_nil] at hemit
  rw [hemit, partsText_model]
  unfold clean_html_tags_docx
  rw [subAnyTag_render cs tl hg htl, hstrip2]

section ParseGoDLemmas

attribute [local irreducible] clean_html_tags_docx

/-- The DOCX list-item scan always terminates without error. -/
theorem scanListItemsD_isSome (lines : List Str) :
    ∀ i, (scanListItemsD lines i).isSome := by
  have H : ∀ n i, lines.length - i ≤ n → (scanListItemsD lines i).isSome := by
    intro n
    induction n with
    | zero =>
      intro i hle
      have h : ¬ i < lines.length := by omega
      rw [scanListItemsD]; simp [h]
    | succ n ih =>
      intro i hle
      rw [scanListItemsD]
      by_cases h : i < lines.length
      · obtain ⟨l, hl⟩ : ∃ l, lines.get? i = some l := ⟨_, List.get?_eq_get h⟩
        simp only [dif_pos h, hl]
        by_cases he : pyStrip l = "</ul>".data ∨ pyStrip l = "</ol>".data
        · simp [he]
        · simp only [if_neg he]
          have := ih (i + 1) (by omega)
          rcases hrec : scanListItemsD lines (i + 1) with _ | ⟨items, d⟩
          · rw [hrec] at this; cases this
          · simp
      · simp [h]
  exact fun i => H (lines.length - i) i (le_refl _)

/-- The DOCX parser main loop never raises, from any state. -/
theorem parseGoD_isSome (battempt : Except String Unit) (lines : List Str) :
    ∀ i doc, (parseGoD battempt lines i doc).isSome := by
  have H : ∀ n i doc, lines.length - i ≤ n → (parseGoD battempt lines i doc).isSome := by
    intro n
    induction n with
    | zero =>
      intro i doc hle
      have h : ¬ i < lines.length := by omega
      rw [parseGoD]; simp [h]
    | succ n ih =>
      intro i doc hle
      rw [parseGoD]
      by_cases h : i < lines.length
      · obtain ⟨l, hl⟩ : ∃ l, lines.get? i = some l := ⟨_, List.get?_eq_get h⟩
        simp only [dif_pos h, hl]
        obtain ⟨⟨col1, d1⟩, hs1⟩ : ∃ p, scanUntilEnd "</code></pre>".data lines (i + 1) = some p :=
          Option.isSome_iff_exists.mp (scanUntilEnd_isSome _ lines (i + 1))
        obtain ⟨⟨col2, d2⟩, hs2⟩ : ∃ p, scanUntilEnd "</blockquote>".data lines (i + 1) = some p :=
          Option.isSome_iff_exists.mp (scanUntilEnd_isSome _ lines (i + 1))
        obtain ⟨⟨items, d3⟩, hs3⟩ : ∃ p, scanListItemsD lines (i + 1) = some p :=
          Option.isSome_iff_exists.mp (scanListItemsD_isSome lines (i + 1))
        obtain ⟨cv1, hg1⟩ : ∃ c, guardGet lines (i + 1 + d1) = some c :=
          Option.isSome_iff_exists.mp (guardGet_isSome lines (i + 1 + d1))
        obtain ⟨cv2, hg2⟩ : ∃ c, guardGet lines (i + 1 + d2) = some c :=
          Option.isSome_iff_exists.mp (guardGet_isSome lines (i + 1 + d2))
        rw [hs1, hs2, hs3]
        by_cases c0 : (pyStrip l).isEmpty = true
        · rw [if_pos c0]; exact ih _ _ (by omega)
        · rw [if_neg c0]
          by_cases c1 : (strStarts "<h1>".data (pyStrip l) &&
              strEnds "</h1>".data (pyStrip l)) = true
          · rw [if_pos c1]; exact ih _ _ (by omega)
          · rw [if_neg c1]
            by_cases c2 : (strStarts "<h2>".data (pyStrip l) &&
                strEnds "</h2>".data (pyStrip l)) = true
            · rw [if_pos c2]; exact ih _ _ (by omega)
            · rw [if_neg c2]
              by_cases c3 : (strStarts "<h3>".data (pyStrip l) &&
                  strEnds "</h3>".data (pyStrip l)) = true
              · rw [if_pos c3]; exact ih _ _ (by omega)
              · rw [if_neg c3]
                by_cases c4 : strStarts "<pre><code>".data (pyStrip l) = true
                · rw [if_pos c4]
                  by_cases c4a : strEnds "</code></pre>".data (pyStrip l) = true
                  · rw [if_pos c4a]; exact ih _ _ (by omega)
                  · rw [if_neg c4a]
                    simp only [hg1]
                    exact ih _ _ (by omega)
                · rw [if_neg c4]
                  by_cases c5 : strStarts "<blockquote>".data (pyStrip l) = true
                  · rw [if_pos c5]
                    by_cases c5a : strEnds "</blockquote>".data (pyStrip l) = true
                    · rw [if_pos c5a]; exact ih _ _ (by omega)
                    · rw [if_neg c5a]
                      simp only [hg2]
                      exact ih _ _ (by omega)
                  · rw [if_neg c5]
                    by_cases c6 : (strStarts "<ul>".data (pyStrip l) ||
                        strStarts "<ol>".data (pyStrip l)) = true
                    · rw [if_pos c6]
                      exact ih _ _ (by omega)
                    · rw [if_neg c6]
                      by_cases c7 : (strStarts "<p>".data (pyStrip l) &&
                          strEnds "</p>".data (pyStrip l)) = true
                      · rw [if_pos c7]; exact ih _ _ (by omega)
                      · rw [if_neg c7]
                        by_cases c8 : (clean_html_tags_docx (pyStrip l)).isEmpty = true
                        · rw [if_pos c8]; exact ih _ _ (by omega)
                        · rw [if_neg c8]; exact ih _ _ (by omega)
      · simp [h]
  exact fun i doc => H (lines.length - i) i doc (le_refl _)

/-- The DOCX parser main loop over all-blank lines adds nothing. -/
theorem parseGoD_blank (battempt : Except String Unit) (lines : List Str) :
    ∀ i doc, (∀ j, i ≤ j → j < lines.length → pyStrip (lines.getD j []) = []) →
      parseGoD battempt lines i doc = some doc := by
  have H : ∀ n i doc, lines.length - i ≤ n →
      (∀ j, i ≤ j → j < lines.length → pyStrip (lines.getD j []) = []) →
      parseGoD battempt lines i doc = some doc := by
    intro n
    induction n with
    | zero =>
      intro i doc hle hbl
      have h : ¬ i < lines.length := by omega
      rw [parseGoD]
      simp [h]
    | succ n ih =>
      intro i doc hle hbl
      by_cases h : i < lines.length
      · obtain ⟨l, hl⟩ : ∃ l, lines.get? i = some l := ⟨_, List.get?_eq_get h⟩
        have hld : lines.getD i [] = l := by
          rw [List.getD_eq_get?, hl]; rfl
        have hblank : pyStrip l = [] := by
          have := hbl i (le_refl i) h
          rwa [hld] at this
        rw [parseGoD]
        simp only [dif_pos h, hl, hblank, List.isEmpty_nil, if_pos]
        exact ih (i + 1) doc (by omega) (fun j hij hjl => hbl j (by omega) hjl)
      · rw [parseGoD]
        simp [h]
  exact fun i doc hbl => H (lines.length - i) i doc (le_refl _) hbl

/-- The try/except wrapper always returns a boolean. -/
theorem pyTry_ok (body : Except String Bool) : ∃ b, pyTry body = .ok b := by
  cases body <;> exact ⟨_, rfl⟩

/-- C9: none of the four public conversion entry points ever propagates
an exception: whatever the outcomes of the external library calls, each
returns a boolean (`True` on success, `False` on an internal failure)
instead of raising a typed error. -/
theorem entry_points_never_raise :
    (∀ dc md bld, ∃ b, markdown_text_to_pdf dc md bld = .ok b) ∧
    (∀ dc st ba md sv, ∃ b, markdown_text_to_docx dc st ba md sv = .ok b) ∧
    (∀ d dfc wbc fmt sv af, ∃ b, json_to_excel_file d dfc wbc fmt sv af = .ok b) ∧
    (∀ tw dop bld, ∃ b, convert_docx_content_to_pdf tw dop bld = .ok b) :=
  ⟨fun _ _ _ => pyTry_ok _, fun _ _ _ _ _ => pyTry_ok _,
   fun _ _ _ _ _ _ => pyTry_ok _, fun _ _ _ => pyTry_ok _⟩

/-- C7: a failure while applying cosmetic formatting — the blockquote
left border in the DOCX renderer, or the styling pass in the Excel
renderer — never aborts the conversion: the border helper returns the
paragraph with only its border omitted, and both conversions still
complete and report success when the cosmetic step's outcome is an
error. -/
theorem cosmetic_failures_never_abort :
    (∀ (attempt : Except String Unit) (p : OutPara),
      (add_border_to_paragraph attempt p).text = p.text ∧
      (add_border_to_paragraph attempt p).style = p.style ∧
      (add_border_to_paragraph attempt p).runs = p.runs) ∧
    (∀ (e : String) (html : Str),
      markdown_text_to_docx (.ok ()) (.ok ()) (.error e) (.ok html)
        (fun _ => .ok ()) = .ok true) ∧
    (∀ (e : String) (x : JItem) (xs : List JItem) (af : Bool),
      json_to_excel_file (.list (x :: xs)) (.ok ()) (.ok ()) (.error e) (.ok ()) af
        = .ok true) := by
  refine ⟨?_, ?_, ?_⟩
  · intro attempt p
    cases attempt <;> exact ⟨rfl, rfl, rfl⟩
  · intro e html
    obtain ⟨d, hd⟩ : ∃ d, parse_markdown_to_document (.error e) html = some d :=
      Option.isSome_iff_exists.mp (parseGoD_isSome _ _ 0 [])
    unfold markdown_text_to_docx pyTry
    simp [hd]
  · intro e x xs af
    cases af <;> rfl

/-- C8: when the intermediate HTML of a Markdown input consists only of
blank lines — as `markdown2.markdown` produces (`"\n"`) for the empty
string — both parsers yield the empty block sequence, and both
renderers, given builders that succeed on an empty document, complete
with success rather than failing. -/
theorem empty_markdown_yields_empty_documents
    (html : Str) (battempt : Except String Unit)
    (bld : List RLElem → Except String Unit) (sv : List OutPara → Except String Unit)
    (hblank : ∀ j, 0 ≤ j → j < (splitOnChar '\n' html).length →
      pyStrip ((splitOnChar '\n' html).getD j []) = [])
    (hbld : bld [] = .ok ()) (hsv : sv [] = .ok ()) :
    parse_markdown_to_elements html = some [] ∧
    markdown_text_to_pdf (.ok ()) (.ok html) bld = .ok true ∧
    parse_markdown_to_document battempt html = some [] ∧
    markdown_text_to_docx (.ok ()) (.ok ()) battempt (.ok html) sv = .ok true := by
  have h1 : parse_markdown_to_elements html = some [] := by
    unfold parse_markdown_to_elements
    exact parseGo_blank (splitOnChar '\n' html) 0 [] hblank
  have h3 : parse_markdown_to_document battempt html = some [] := by
    unfold parse_markdown_to_document
    exact parseGoD_blank battempt (splitOnChar '\n' html) 0 [] hblank
  refine ⟨h1, ?_, h3, ?_⟩
  · unfold markdown_text_to_pdf pyTry
    simp [h1, hbld]
  · unfold markdown_text_to_docx pyTry
    simp [h3, hsv]

/-- C8 witness: the empty-string input, whose `markdown2` output is the
single newline `"\n"`. -/
theorem empty_markdown_yields_empty_documents_witness :
    parse_markdown_to_elements "\n".data = some [] ∧
    markdown_text_to_pdf (.ok ()) (.ok "\n".data) (fun _ => .ok ()) = .ok true ∧
    parse_markdown_to_document (.ok ()) "\n".data = some [] ∧
    markdown_text_to_docx (.ok ()) (.ok ()) (.ok ()) (.ok "\n".data)
      (fun _ => .ok ()) = .ok true :=
  empty_markdown_yields_empty_documents "\n".data (.ok ()) (fun _ => .ok ())
    (fun _ => .ok ()) (by decide) rfl rfl

/-- C10: `json_to_excel_file` does not enforce the key-compatibility
invariant: for a two-record list whose key sets are disjoint (far beyond
the 50% bound), the direct call proceeds and reports success, while
`json_string_to_excel` — which runs `validate_json_data` first —
rejects the same data. -/
theorem json_to_excel_file_skips_validation :
    (validate_json_data (.list [JItem.dict {"a", "b"}, JItem.dict {"c", "d"}])).1
        = false ∧
    json_to_excel_file (.list [JItem.dict {"a", "b"}, JItem.dict {"c", "d"}])
        (.ok ()) (.ok ()) (.ok ()) (.ok ()) true = .ok true ∧
    json_string_to_excel (.ok (.list [JItem.dict {"a", "b"}, JItem.dict {"c", "d"}]))
        (.ok ()) (.ok ()) (.ok ()) (.ok ()) true = .ok false := by
  refine ⟨by decide, rfl, ?_⟩
  unfold json_string_to_excel pyTry
  have hv : (validate_json_data
      (.list [JItem.dict {"a", "b"}, JItem.dict {"c", "d"}])).1 = false := by decide
  simp [hv]

end ParseGoDLemmas

/-- C3 witness: the well-formed paragraph `hello <b>world</b>!`. -/
theorem split_formatted_text_wellformed_witness :
    partsText (split_formatted_text
        (renderChunks [⟨"hello ".data, .bTag, "world".data⟩] "!".data))
      = clean_html_tags_docx
        (renderChunks [⟨"hello ".data, .bTag, "world".data⟩] "!".data) :=
  split_formatted_text_wellformed [⟨"hello ".data, .bTag, "world".data⟩] "!".data
    (by decide) (by decide) (by decide) (by decide)

end MdApi
